import Mathlib

/-!
A shallow embedding of the analytics and approval core of the
discord-intro-agent repository (src/analytics.ts, src/agent.ts), together
with proofs about its specified behaviour.

JavaScript strings are modelled as Lean strings over their character
lists; the ASCII fragment of toLowerCase, trim and the whitespace class
is embedded, which covers every character constant the program uses.
External effects (the Ollama completion service, the file system, Slack
and Discord deliveries) are modelled as explicit inputs and emitted
effect values, matching the single-threaded event-loop semantics of the
source: each handler is a pure state transformer between suspension
points.
-/

namespace DiscordIntroAgent

/-- The double-quote character, written via its code point. -/
def dquoteChar : Char := Char.ofNat 34

/-- The single-quote character, written via its code point. -/
def squoteChar : Char := Char.ofNat 39

/-- ASCII whitespace: space, tab, line feed, carriage return.  This is the
fragment of the JavaScript whitespace class that the program's data can
contain. -/
def isWsChar (c : Char) : Bool :=
  c = ' ' || c.toNat = 9 || c.toNat = 10 || c.toNat = 13

/-- The ASCII upper/lower case table used to model
String.prototype.toLowerCase on the ASCII fragment. -/
def upperLowerTable : List (Char × Char) :=
  [('A', 'a'), ('B', 'b'), ('C', 'c'), ('D', 'd'), ('E', 'e'), ('F', 'f'),
   ('G', 'g'), ('H', 'h'), ('I', 'i'), ('J', 'j'), ('K', 'k'), ('L', 'l'),
   ('M', 'm'), ('N', 'n'), ('O', 'o'), ('P', 'p'), ('Q', 'q'), ('R', 'r'),
   ('S', 's'), ('T', 't'), ('U', 'u'), ('V', 'v'), ('W', 'w'), ('X', 'x'),
   ('Y', 'y'), ('Z', 'z')]

/-- Lower-case a single character (ASCII model of toLowerCase). -/
def lcChar (c : Char) : Char :=
  match upperLowerTable.find? (fun p => p.1 = c) with
  | some p => p.2
  | none => c

/-- Model of JavaScript String.prototype.toLowerCase. -/
def jsToLower (l : List Char) : List Char := l.map lcChar

/-- Model of JavaScript String.prototype.trim: drop whitespace from both
ends. -/
def jsTrim (l : List Char) : List Char :=
  ((l.dropWhile isWsChar).reverse.dropWhile isWsChar).reverse

/-- Model of the regex replace(/["']/g, ''): delete every quote
character. -/
def stripQuotes (l : List Char) : List Char :=
  l.filter (fun c => !(c = dquoteChar || c = squoteChar))

/-- Worker for `collapseWs`; `prevWs` records whether the previous
character was whitespace (in which case further whitespace is absorbed
into the single space already emitted). -/
def collapseWsAux (prevWs : Bool) : List Char → List Char
  | [] => []
  | c :: rest =>
    if isWsChar c then
      if prevWs then collapseWsAux true rest
      else ' ' :: collapseWsAux true rest
    else c :: collapseWsAux false rest

/-- Model of the regex replace collapsing every whitespace run to a
single space. -/
def collapseWs (l : List Char) : List Char := collapseWsAux false l

/-- Does the list start with a non-whitespace character (or end here)? -/
def headNotWs : List Char → Bool
  | [] => true
  | c :: _ => !isWsChar c

/-- Is the list free of whitespace runs: every whitespace character is a
single space not followed by more whitespace?  This characterises the
fixed points of `collapseWs`. -/
def noWsRun : List Char → Bool
  | [] => true
  | c :: t => (!isWsChar c || (decide (c = ' ') && headNotWs t)) && noWsRun t

/-- Does `p` occur at the head of the second list? -/
def listStartsWith [DecidableEq α] : List α → List α → Bool
  | [], _ => true
  | _ :: _, [] => false
  | a :: p, b :: l => decide (a = b) && listStartsWith p l

/-- Does `suf` occur at the end of `l`? -/
def listEndsWith [DecidableEq α] (suf l : List α) : Bool :=
  listStartsWith suf.reverse l.reverse

/-- Does `p` occur as a contiguous run somewhere in the second list
(JavaScript String.prototype.includes)? -/
def listContainsSub [DecidableEq α] (p : List α) : List α → Bool
  | [] => p.isEmpty
  | b :: t => listStartsWith p (b :: t) || listContainsSub p t

/-- Model of the anchored regex replace of `stem` optionally followed by
the letter s at the end of the string (e.g. issues?$), substituting
`rep`.  The regex engine prefers the longer match. -/
def replaceOptS (stem rep l : List Char) : List Char :=
  if listEndsWith (stem ++ ['s']) l then l.take (l.length - (stem.length + 1)) ++ rep
  else if listEndsWith stem l then l.take (l.length - stem.length) ++ rep
  else l

/-- The structural-cleanup stage of normalizeHelpTopic in
src/analytics.ts: lower-case, trim, strip quotes, collapse whitespace,
then the four anchored singularising replaces, in source order. -/
def cleanupHelpTopic (l : List Char) : List Char :=
  replaceOptS "question".data "question".data
    (replaceOptS "error".data "error".data
      (replaceOptS "problem".data "issue".data
        (replaceOptS "issue".data "issue".data
          (collapseWs (stripQuotes (jsTrim (jsToLower l)))))))

/-- The canonical-mapping table of normalizeHelpTopic, in the source's
insertion order (for-in over Object.entries preserves it). -/
def helpTopicMappings : List (String × String) :=
  [("coder setup", "coder setup issue"),
   ("coder configuration", "coder setup issue"),
   ("coder install", "coder setup issue"),
   ("coder installation", "coder setup issue"),
   ("vs code setup", "vs code issue"),
   ("vscode setup", "vs code issue"),
   ("vs code issue", "vs code issue"),
   ("vscode issue", "vs code issue"),
   ("vs code connection", "vs code issue"),
   ("workspace issue", "workspace issue"),
   ("workspace crash", "workspace issue"),
   ("workspace connection", "workspace issue"),
   ("ssh issue", "ssh issue"),
   ("ssh connection", "ssh issue"),
   ("ssh setup", "ssh issue"),
   ("docker issue", "docker issue"),
   ("docker setup", "docker issue"),
   ("devcontainer issue", "devcontainer issue"),
   ("devcontainer setup", "devcontainer issue"),
   ("template issue", "template issue"),
   ("template setup", "template issue"),
   ("authentication issue", "authentication issue"),
   ("auth issue", "authentication issue"),
   ("login issue", "authentication issue"),
   ("git issue", "git issue"),
   ("git authentication", "git issue"),
   ("github issue", "git issue"),
   ("unknown issue", "general help"),
   ("no main topic extracted", "general help"),
   ("general help", "general help")]

/-- normalizeHelpTopic from src/analytics.ts: structural cleanup, then
first-match-wins lookup in the canonical mapping table (the for-in loop
with early return); if no pattern is contained in the cleaned string it
is returned unchanged. -/
def normalizeHelpTopic (topic : String) : String :=
  let normalized := cleanupHelpTopic topic.data
  ((helpTopicMappings.find? (fun p => listContainsSub p.1.data normalized)).map
    (fun p => p.2)).getD (String.mk normalized)

/-- The closed Topic enumeration from src/analytics.ts. -/
inductive Topic
  | supportRequest
  | featureRequest
  | bugReport
  | generalDiscussion
  | praise
  | question
deriving DecidableEq

/-- The string spelling of each Topic label, as in the source's string
union type. -/
def Topic.label : Topic → String
  | .supportRequest => "support-request"
  | .featureRequest => "feature-request"
  | .bugReport => "bug-report"
  | .generalDiscussion => "general-discussion"
  | .praise => "praise"
  | .question => "question"

/-- The validTopics array inside classifyMessage. -/
def validTopics : List String :=
  ["support-request", "feature-request", "bug-report", "general-discussion",
   "praise", "question"]

/-- Parse a string into the Topic it spells, if any; combined with the
validTopics membership test this models the includes-then-cast check in
classifyMessage. -/
def topicFromLabel? (s : String) : Option Topic :=
  if s = "support-request" then some .supportRequest
  else if s = "feature-request" then some .featureRequest
  else if s = "bug-report" then some .bugReport
  else if s = "general-discussion" then some .generalDiscussion
  else if s = "praise" then some .praise
  else if s = "question" then some .question
  else none

/-- Trim then lower-case, the post-processing classifyMessage applies to
the completion service's response text. -/
def jsTrimLower (s : String) : String := String.mk (jsToLower (jsTrim s.data))

/-- classifyMessage from src/analytics.ts.  The external completion call
is modelled by its outcome: `none` is a network/parse failure or a
missing response field, `some s` is the raw response text.  The response
is trimmed, lower-cased and validated against the closed Topic set;
anything unrecognised, and any failure, yields general-discussion, so
classification is total and never raises. -/
def classifyMessage (resp : Option String) : Topic :=
  match resp with
  | none => .generalDiscussion
  | some s =>
    match topicFromLabel? (jsTrimLower s) with
    | some t => t
    | none => .generalDiscussion

/-- extractHelpTopic from src/analytics.ts, with the external call again
modelled by its outcome.  The response is trimmed and lower-cased; a
failure or an empty (falsy) result falls back to "general help". -/
def extractHelpTopic (resp : Option String) : String :=
  match resp with
  | none => "general help"
  | some s =>
    let r := jsTrimLower s
    if r = "" then "general help" else r

/-- TrackedMessage from src/analytics.ts.  Timestamps are epoch
milliseconds. -/
structure TrackedMessage where
  content : String
  author : String
  channel : String
  topic : Topic
  helpTopic : Option String
  timestamp : Int
  threadId : Option String
  threadName : Option String
  messageId : Option String
  channelId : Option String
deriving DecidableEq

/-- JavaScript truthiness of an optional string field: undefined and the
empty string are falsy. -/
def optTruthy : Option String → Bool
  | none => false
  | some s => !(s = "")

/-- JavaScript Map.prototype.get, on the insertion-ordered association
list modelling a Map. -/
def findVal [DecidableEq κ] (m : List (κ × ν)) (k : κ) : Option ν :=
  (m.find? (fun p => p.1 = k)).map (fun p => p.2)

/-- Update the entry at key `k` through `upd` (which sees the current
value, if any), keeping the key's position; a new key is appended at the
end.  This is the update pattern the source performs with Map.has /
Map.get / Map.set, and it preserves a JavaScript Map's insertion
order. -/
def bumpAssoc [DecidableEq κ] (upd : Option ν → ν) (k : κ) : List (κ × ν) → List (κ × ν)
  | [] => [(k, upd none)]
  | e :: r => if e.1 = k then (e.1, upd (some e.2)) :: r else e :: bumpAssoc upd k r

/-- JavaScript Map.prototype.delete on the association-list model. -/
def mapDelete [DecidableEq κ] (k : κ) (m : List (κ × ν)) : List (κ × ν) :=
  m.filter (fun p => !(p.1 = k))

/-- JavaScript Map.prototype.set on the association-list model: replace
in place, or append a fresh key at the end. -/
def mapSet [DecidableEq κ] (k : κ) (v : ν) (m : List (κ × ν)) : List (κ × ν) :=
  bumpAssoc (fun _ => v) k m

/-- The in-memory analytics ledger: the message log plus the derived
per-channel per-topic counters (a Map of Maps in the source). -/
structure LedgerState where
  messages : List TrackedMessage
  topicCounts : List (String × List (Topic × Nat))
deriving DecidableEq

/-- The ledger at process start: both stores empty. -/
def emptyLedger : LedgerState := ⟨[], []⟩

/-- The counter increment shared by recordMessage and recordTopic:
ensure the channel's inner map exists, then set the topic's count to its
current value (0 when absent) plus one. -/
def bumpCount (channel : String) (topic : Topic)
    (m : List (String × List (Topic × Nat))) : List (String × List (Topic × Nat)) :=
  bumpAssoc (fun inner => bumpAssoc (fun c => c.getD 0 + 1) topic (inner.getD [])) channel m

/-- recordMessage from src/analytics.ts.  `helpResp` is the outcome of
the extractHelpTopic service call, which is only performed for the help
channel; `now` is the clock reading taken for the message timestamp. -/
def recordMessage (content author channel : String) (topic : Topic)
    (helpResp : Option String) (threadId threadName messageId channelId : Option String)
    (now : Int) (s : LedgerState) : LedgerState :=
  let helpTopic := if channel = "help" then some (extractHelpTopic helpResp) else none
  { messages := s.messages ++
      [⟨content, author, channel, topic, helpTopic, now, threadId, threadName, messageId, channelId⟩],
    topicCounts := bumpCount channel topic s.topicCounts }

/-- recordTopic from src/analytics.ts: increments the counter only, the
message log is untouched. -/
def recordTopic (channel : String) (topic : Topic) (s : LedgerState) : LedgerState :=
  { s with topicCounts := bumpCount channel topic s.topicCounts }

/-- One call to a ledger record operation, with the external inputs the
call consumed. -/
inductive RecordOp
  | message (content author channel : String) (topic : Topic)
      (helpResp : Option String) (threadId threadName messageId channelId : Option String)
      (now : Int)
  | topicOnly (channel : String) (topic : Topic)

/-- Does this operation go through recordMessage? -/
def RecordOp.isMessage : RecordOp → Bool
  | .message .. => true
  | .topicOnly .. => false

/-- Run one record operation. -/
def applyRecordOp (s : LedgerState) : RecordOp → LedgerState
  | .message content author channel topic helpResp threadId threadName messageId channelId now =>
      recordMessage content author channel topic helpResp threadId threadName messageId channelId now s
  | .topicOnly channel topic => recordTopic channel topic s

/-- Run a sequence of record operations, left to right. -/
def applyRecordOps : List RecordOp → LedgerState → LedgerState
  | [], s => s
  | op :: r, s => applyRecordOps r (applyRecordOp s op)

/-- getAllMessages from src/analytics.ts (the spread copy is identity on
the model). -/
def getAllMessages (s : LedgerState) : List TrackedMessage := s.messages

/-- The count getTopicSummary reports for one channel and topic: the
nested counter lookup, with absent entries omitted from the record, i.e.
counting as zero. -/
def summaryCount (s : LedgerState) (channel : String) (topic : Topic) : Nat :=
  (findVal ((findVal s.topicCounts channel).getD []) topic).getD 0

/-- The number of logged messages of a given channel and topic — the
fold over the source-of-truth log that the counters are supposed to
cache. -/
def logCount (msgs : List TrackedMessage) (channel : String) (topic : Topic) : Nat :=
  (msgs.filter (fun m => decide (m.channel = channel ∧ m.topic = topic))).length

/-- Insert `a` into a list already sorted by `cnt` descending, before the
first element whose count does not exceed `a`'s.  This places an element
before every equal-count element already present, which together with
`sortCntDesc` processing the input back to front reproduces the unique
stable descending sort — the semantics of JavaScript's (stable)
Array.prototype.sort with the comparator (a, b) => b.count - a.count. -/
def insertCntDesc (cnt : α → Nat) (a : α) : List α → List α
  | [] => [a]
  | b :: t => if cnt b ≤ cnt a then a :: b :: t else b :: insertCntDesc cnt a t

/-- Stable sort by `cnt` descending (insertion sort formulation). -/
def sortCntDesc (cnt : α → Nat) (l : List α) : List α :=
  l.foldr (insertCntDesc cnt) []

/-- The filter getTopHelpTopics applies to the log: help-channel messages
whose helpTopic field is truthy. -/
def helpPred (m : TrackedMessage) : Bool :=
  decide (m.channel = "help") && optTruthy m.helpTopic

/-- The normalized help topic of a message (the source reads the field
with a non-null assertion; under `helpPred` it is present). -/
def normTopicOf (m : TrackedMessage) : String :=
  normalizeHelpTopic (m.helpTopic.getD "")

/-- The stream of normalized topics of the filtered help messages, in
log order; its first occurrences define the tie-break order. -/
def seenTopics (msgs : List TrackedMessage) : List String :=
  (msgs.filter helpPred).map normTopicOf

/-- The occurrence-counting Map loop of getTopHelpTopics over a topic
stream. -/
def tallyOf (ts : List String) : List (String × Nat) :=
  ts.foldl (fun acc t => bumpAssoc (fun c => c.getD 0 + 1) t acc) []

/-- getTopHelpTopics from src/analytics.ts: count occurrences of each
normalized topic of the filtered help messages, sort by count descending
(stable), and keep the first `limit` entries. -/
def getTopHelpTopics (limit : Nat) (msgs : List TrackedMessage) : List (String × Nat) :=
  (sortCntDesc (fun p => p.2) (tallyOf (seenTopics msgs))).take limit

/-- The guard of the per-thread counting loop in getTopThreads: both the
thread id and the thread name must be truthy. -/
def threadPred (m : TrackedMessage) : Bool :=
  optTruthy m.threadId && optTruthy m.threadName

/-- The per-thread counting Map of getTopThreads: keyed by threadId, the
value keeps the first message's threadName and the running count. -/
def threadTally (msgs : List TrackedMessage) : List (String × (String × Nat)) :=
  (msgs.filter threadPred).foldl
    (fun acc m =>
      bumpAssoc
        (fun cur =>
          match cur with
          | none => (m.threadName.getD "", 1)
          | some e => (e.1, e.2 + 1))
        (m.threadId.getD "") acc)
    []

/-- The number of counted (threadId and threadName both truthy) messages
of a given thread in the log. -/
def threadLogCount (msgs : List TrackedMessage) (tid : String) : Nat :=
  (msgs.filter (fun m => decide (m.threadId.getD "" = tid) && threadPred m)).length

/-- getTopThreads from src/analytics.ts: count messages per thread,
filter to counts of at least `minReplies`, sort by count descending
(stable), keep the first `limit`. -/
def getTopThreads (minReplies limit : Nat) (msgs : List TrackedMessage) :
    List (String × String × Nat) :=
  ((((threadTally msgs).filter (fun e => minReplies ≤ e.2.2)).map
      (fun e => (e.1, e.2.1, e.2.2))
    |> sortCntDesc (fun x => x.2.2)).take limit)

/-- ConversationMessage from src/analytics.ts. -/
inductive ConvRole
  | user
  | assistant
deriving DecidableEq

/-- One stored conversation turn. -/
structure ConversationMessage where
  role : ConvRole
  content : String
  timestamp : Int
deriving DecidableEq

/-- The per-user conversation store (a Map keyed by user id). -/
abbrev ConvMap : Type := List (String × List ConversationMessage)

/-- MAX_CONVERSATION_AGE_HOURS converted to milliseconds, as computed in
the cutoff expressions (168 hours). -/
def retentionMs : Int := 24 * 7 * 60 * 60 * 1000

/-- addToConversation from src/analytics.ts: fetch the user's history
(creating an empty one when absent), drop every turn not strictly newer
than the cutoff `now - retentionMs`, append the new turn stamped `now`,
and store the result back. -/
def addToConversation (now : Int) (userId : String) (role : ConvRole) (content : String)
    (conv : ConvMap) : ConvMap :=
  let history := (findVal conv userId).getD []
  let cutoff := now - retentionMs
  let filtered := history.filter (fun m => decide (cutoff < m.timestamp))
  mapSet userId (filtered ++ [⟨role, content, now⟩]) conv

/-- getConversationHistory from src/analytics.ts: the stored history with
the same age filter applied on read. -/
def getConversationHistory (now : Int) (userId : String) (conv : ConvMap) :
    List ConversationMessage :=
  let history := (findVal conv userId).getD []
  let cutoff := now - retentionMs
  history.filter (fun m => decide (cutoff < m.timestamp))

/-- clearConversation from src/analytics.ts: delete the user's entry. -/
def clearConversation (userId : String) (conv : ConvMap) : ConvMap :=
  mapDelete userId conv

/-- One conversation-memory operation, with the clock reading an append
consumed. -/
inductive ConvOp
  | append (now : Int) (userId : String) (role : ConvRole) (content : String)
  | clear (userId : String)

/-- Does this operation clear the given user's history? -/
def ConvOp.clearsUser (u : String) : ConvOp → Bool
  | .append .. => false
  | .clear userId => decide (userId = u)

/-- Run one conversation operation. -/
def applyConvOp (conv : ConvMap) : ConvOp → ConvMap
  | .append now userId role content => addToConversation now userId role content conv
  | .clear userId => clearConversation userId conv

/-- Run a sequence of conversation operations, left to right. -/
def applyConvOps : List ConvOp → ConvMap → ConvMap
  | [], conv => conv
  | op :: r, conv => applyConvOps r (applyConvOp conv op)

/-- The on-disk state of one snapshot file, as loadPersistedData can
encounter it: absent, present but unparseable (or of the wrong shape),
or present with parsed content. -/
inductive FileState (α : Type)
  | missing
  | corrupt
  | ok (v : α)

/-- Rebuild of the derived counters from a freshly loaded message list,
as performed by the loop inside loadPersistedData. -/
def rebuildCounts (msgs : List TrackedMessage) : List (String × List (Topic × Nat)) :=
  msgs.foldl (fun acc m => bumpCount m.channel m.topic acc) []

/-- loadPersistedData from src/analytics.ts.  Both reads run inside one
try block: a missing file is skipped by the existsSync guard, but a
throw while reading or parsing the message file jumps to the catch and
the conversation file is never read.  The function itself never raises
(the catch only logs). -/
def loadPersistedData (dataFile : FileState (List TrackedMessage))
    (convFile : FileState ConvMap) : LedgerState × ConvMap :=
  match dataFile with
  | .corrupt => (emptyLedger, [])
  | .missing =>
    match convFile with
    | .ok convs => (emptyLedger, convs)
    | _ => (emptyLedger, [])
  | .ok msgs =>
    match convFile with
    | .ok convs => (⟨msgs, rebuildCounts msgs⟩, convs)
    | _ => (⟨msgs, rebuildCounts msgs⟩, [])

/-- hasPersistedData from src/analytics.ts: only the message log is
consulted. -/
def hasPersistedData (s : LedgerState) : Bool :=
  decide (s.messages.length > 0)

/-- The startup decision in the ClientReady handler of src/agent.ts: the
historical backfill is skipped exactly when hasPersistedData() holds. -/
def skipsHistoricalFetch (s : LedgerState) : Bool :=
  hasPersistedData s

/-- The data of one pendingResponses entry in src/agent.ts (the Discord
message object is represented by its author's username). -/
structure PendingResponse where
  discordAuthor : String
  suggestedResponse : String
  introContent : String
  discordUrl : String
  slackChannel : String
  slackTs : String
deriving DecidableEq

/-- The outward Slack/Discord action the interactive handler performs,
modelled as an emitted effect. -/
inductive SlackEffect
  | expiredNotice
  | publishToThread (author text : String)
  | openEditModal (messageId : String)
  | updateSkipped (author : String)
  | noEffect
deriving DecidableEq

/-- The mutable handler state of src/agent.ts: the pending-response map
plus the analytics ledger (which the interactive handler never
touches). -/
structure AgentState where
  pendingResponses : List (String × PendingResponse)
  ledger : LedgerState
deriving DecidableEq

/-- The block_actions branch of the slackSocket interactive handler in
src/agent.ts.  The "View on Discord" button returns early; otherwise the
pending record is looked up by the button's value and, when it is gone,
an explicit expired notice is posted and nothing else happens.  With a
record present, approve publishes and deletes, edit opens the modal,
reject updates and deletes. -/
def handleBlockAction (s : AgentState) (actionId value : String) : AgentState × SlackEffect :=
  if actionId = "view_discord" then (s, .noEffect)
  else
    match findVal s.pendingResponses value with
    | none => (s, .expiredNotice)
    | some pending =>
      if listStartsWith "approve_".data actionId.data then
        ({ s with pendingResponses := mapDelete value s.pendingResponses },
         .publishToThread pending.discordAuthor pending.suggestedResponse)
      else if listStartsWith "edit_".data actionId.data then
        (s, .openEditModal value)
      else if listStartsWith "reject_".data actionId.data then
        ({ s with pendingResponses := mapDelete value s.pendingResponses },
         .updateSkipped pending.discordAuthor)
      else (s, .noEffect)

/-- A concrete non-empty conversation snapshot used to exhibit the load
dependence. -/
def cexConvData : ConvMap := [("alice", [⟨ConvRole.user, "hi", 0⟩])]

/-- A concrete quoted raw topic whose quote-stripping exposes an inner
leading space, used to exhibit non-idempotence of the normalizer. -/
def cexRawTopic : String := String.mk [squoteChar, ' ', 'h', 'i', squoteChar]

/-- The ten tracked messages of end-to-end scenario C: six in thread
Alpha, four in thread Beta, all inside the help channel. -/
def scenarioCMsg (tid tname : String) (i : Int) : TrackedMessage :=
  ⟨"m", "a", "help", Topic.question, none, i, some tid, some tname, none, none⟩

/-- One help-channel message of end-to-end scenario B, carrying a raw
extracted helpTopic. -/
def scenarioBMsg (raw : String) (i : Int) : TrackedMessage :=
  ⟨"m", "a", "help", Topic.question, some raw, i, none, none, none, none⟩

/-- The scenario B log: three spellings of the same help topic. -/
def scenarioBMsgs : List TrackedMessage :=
  [scenarioBMsg "VS Code setup" 0, scenarioBMsg "vscode issue" 1, scenarioBMsg "VSCode Setup" 2]

/-- The scenario C log. -/
def scenarioCMsgs : List TrackedMessage :=
  [scenarioCMsg "alpha" "Alpha" 0, scenarioCMsg "alpha" "Alpha" 1,
   scenarioCMsg "alpha" "Alpha" 2, scenarioCMsg "beta" "Beta" 3,
   scenarioCMsg "alpha" "Alpha" 4, scenarioCMsg "beta" "Beta" 5,
   scenarioCMsg "alpha" "Alpha" 6, scenarioCMsg "beta" "Beta" 7,
   scenarioCMsg "beta" "Beta" 8, scenarioCMsg "alpha" "Alpha" 9]

section AssocLemmas

variable {κ : Type} {ν : Type} [DecidableEq κ]

/-- Map.get on a cons cell. -/
theorem findVal_cons (e : κ × ν) (r : List (κ × ν)) (s : κ) :
    findVal (e :: r) s = if e.1 = s then some e.2 else findVal r s := by
  by_cases h : e.1 = s
  · simp [findVal, List.find?_cons, h]
  · simp [findVal, List.find?_cons, decide_eq_false h, h]

/-- Unfolding of `bumpAssoc` on a cons cell whose head holds the key. -/
theorem bumpAssoc_cons_pos (upd : Option ν → ν) (k : κ) (e : κ × ν) (r : List (κ × ν))
    (h : e.1 = k) : bumpAssoc upd k (e :: r) = (e.1, upd (some e.2)) :: r := by
  simp [bumpAssoc, h]

/-- Unfolding of `bumpAssoc` on a cons cell whose head misses the key. -/
theorem bumpAssoc_cons_neg (upd : Option ν → ν) (k : κ) (e : κ × ν) (r : List (κ × ν))
    (h : ¬ e.1 = k) : bumpAssoc upd k (e :: r) = e :: bumpAssoc upd k r := by
  simp [bumpAssoc, h]

/-- Pointwise effect of a `bumpAssoc` update on Map.get. -/
theorem findVal_bumpAssoc (upd : Option ν → ν) (k s : κ) (m : List (κ × ν)) :
    findVal (bumpAssoc upd k m) s =
      if s = k then some (upd (findVal m k)) else findVal m s := by
  induction m with
  | nil =>
    rw [show bumpAssoc upd k ([] : List (κ × ν)) = [(k, upd none)] from rfl, findVal_cons]
    by_cases h : s = k
    · rw [if_pos h.symm, if_pos h]; rfl
    · rw [if_neg (fun hc => h hc.symm), if_neg h]
  | cons e r ih =>
    by_cases hek : e.1 = k
    · by_cases hsk : s = k
      · subst hsk
        rw [if_pos rfl, bumpAssoc_cons_pos upd s e r hek, findVal_cons, if_pos hek,
          findVal_cons, if_pos hek]
      · have hes : ¬ e.1 = s := fun hc => hsk (hc.symm.trans hek)
        rw [if_neg hsk, bumpAssoc_cons_pos upd k e r hek, findVal_cons, if_neg hes,
          findVal_cons, if_neg hes]
    · rw [bumpAssoc_cons_neg upd k e r hek, findVal_cons]
      by_cases hes : e.1 = s
      · have hsk : ¬ s = k := fun hc => hek (hes.trans hc)
        rw [if_pos hes, if_neg hsk, findVal_cons, if_pos hes]
      · rw [if_neg hes, ih,
          show findVal (e :: r) k = findVal r k from by rw [findVal_cons, if_neg hek],
          show findVal (e :: r) s = findVal r s from by rw [findVal_cons, if_neg hes]]

/-- Map.get after Map.set. -/
theorem findVal_mapSet (k s : κ) (v : ν) (m : List (κ × ν)) :
    findVal (mapSet k v m) s = if s = k then some v else findVal m s :=
  findVal_bumpAssoc (fun _ => v) k s m

/-- Map.get of another key after Map.delete. -/
theorem findVal_mapDelete (k s : κ) (m : List (κ × ν)) (h : ¬ s = k) :
    findVal (mapDelete k m) s = findVal m s := by
  induction m with
  | nil => rfl
  | cons e r ih =>
    by_cases hek : e.1 = k
    · have hes : ¬ e.1 = s := fun hc => h (hc.symm.trans hek)
      rw [show mapDelete k (e :: r) = mapDelete k r from by
          simp [mapDelete, List.filter_cons, hek],
        ih, findVal_cons, if_neg hes]
    · rw [show mapDelete k (e :: r) = e :: mapDelete k r from by
          simp [mapDelete, List.filter_cons, hek],
        findVal_cons, findVal_cons]
      by_cases hes : e.1 = s
      · rw [if_pos hes, if_pos hes]
      · rw [if_neg hes, if_neg hes, ih]

/-- Keys of a `bumpAssoc` update: unchanged when the key is present, the
key appended at the end otherwise. -/
theorem keys_bumpAssoc (upd : Option ν → ν) (k : κ) (m : List (κ × ν)) :
    (bumpAssoc upd k m).map Prod.fst =
      if k ∈ m.map Prod.fst then m.map Prod.fst else m.map Prod.fst ++ [k] := by
  induction m with
  | nil => simp [bumpAssoc]
  | cons e r ih =>
    by_cases hek : e.1 = k
    · rw [bumpAssoc_cons_pos upd k e r hek,
        if_pos (by rw [List.map_cons]; exact List.mem_cons.mpr (Or.inl hek.symm))]
      rfl
    · rw [bumpAssoc_cons_neg upd k e r hek, List.map_cons, List.map_cons, ih]
      by_cases hk : k ∈ r.map Prod.fst
      · rw [if_pos hk, if_pos (List.mem_cons.mpr (Or.inr hk))]
      · rw [if_neg hk, if_neg (by
          intro hc
          rcases List.mem_cons.mp hc with hc1 | hc2
          · exact hek hc1.symm
          · exact hk hc2)]
        rfl

/-- `bumpAssoc` preserves key distinctness. -/
theorem nodup_keys_bumpAssoc (upd : Option ν → ν) (k : κ) (m : List (κ × ν))
    (h : (m.map Prod.fst).Nodup) : ((bumpAssoc upd k m).map Prod.fst).Nodup := by
  rw [keys_bumpAssoc]
  by_cases hk : k ∈ m.map Prod.fst
  · rw [if_pos hk]; exact h
  · rw [if_neg hk, List.nodup_append]
    exact ⟨h, List.nodup_singleton k,
      fun a ha hak => hk ((List.mem_singleton.mp hak) ▸ ha)⟩

/-- With distinct keys, Map.get at an entry's key returns that entry's
value. -/
theorem findVal_self_of_mem {m : List (κ × ν)} (h : (m.map Prod.fst).Nodup)
    {e : κ × ν} (he : e ∈ m) : findVal m e.1 = some e.2 := by
  induction m with
  | nil => cases he
  | cons a r ih =>
    rw [List.map_cons, List.nodup_cons] at h
    rcases List.mem_cons.mp he with rfl | her
    · rw [findVal_cons, if_pos rfl]
    · have hne : ¬ a.1 = e.1 := fun hc => h.1 (by
        rw [hc]; exact List.mem_map_of_mem Prod.fst her)
      rw [findVal_cons, if_neg hne]
      exact ih h.2 her

/-- Membership among the keys after a `bumpAssoc` update. -/
theorem mem_keys_bumpAssoc (upd : Option ν → ν) (k s : κ) (m : List (κ × ν)) :
    s ∈ (bumpAssoc upd k m).map Prod.fst ↔ s = k ∨ s ∈ m.map Prod.fst := by
  rw [keys_bumpAssoc]
  by_cases hk : k ∈ m.map Prod.fst
  · rw [if_pos hk]
    constructor
    · exact Or.inr
    · rintro (rfl | hs)
      · exact hk
      · exact hs
  · rw [if_neg hk]
    simp [or_comm]

end AssocLemmas

/-- Each valid label string parses to a Topic spelling exactly it. -/
theorem topicFromLabel?_of_mem (r : String) (h : r ∈ validTopics) :
    ∃ t : Topic, topicFromLabel? r = some t ∧ t.label = r := by
  rcases (by simpa [validTopics] using h : r = "support-request" ∨ r = "feature-request" ∨
      r = "bug-report" ∨ r = "general-discussion" ∨ r = "praise" ∨ r = "question")
    with rfl | rfl | rfl | rfl | rfl | rfl
  · exact ⟨.supportRequest, rfl, rfl⟩
  · exact ⟨.featureRequest, rfl, rfl⟩
  · exact ⟨.bugReport, rfl, rfl⟩
  · exact ⟨.generalDiscussion, rfl, rfl⟩
  · exact ⟨.praise, rfl, rfl⟩
  · exact ⟨.question, rfl, rfl⟩

/-- A string outside the valid set does not parse. -/
theorem topicFromLabel?_of_not_mem (r : String) (h : r ∉ validTopics) :
    topicFromLabel? r = none := by
  unfold topicFromLabel?
  split_ifs with h1 h2 h3 h4 h5 h6
  · exact absurd (by rw [h1]; decide) h
  · exact absurd (by rw [h2]; decide) h
  · exact absurd (by rw [h3]; decide) h
  · exact absurd (by rw [h4]; decide) h
  · exact absurd (by rw [h5]; decide) h
  · exact absurd (by rw [h6]; decide) h
  · rfl

/-- C4: classifyMessage always lands in the closed six-label Topic set
and never raises to the caller: the completion service's response is
trimmed and lower-cased and validated against the set; a recognised
label is returned as that Topic, and an unrecognised result or a failed
call yields general-discussion.  Totality of the Lean function models
the try/catch that swallows every service error. -/
theorem classify_total_spec :
    classifyMessage none = Topic.generalDiscussion ∧
    (∀ s : String, jsTrimLower s ∉ validTopics →
      classifyMessage (some s) = Topic.generalDiscussion) ∧
    (∀ s : String, jsTrimLower s ∈ validTopics →
      (classifyMessage (some s)).label = jsTrimLower s) ∧
    (∀ resp : Option String, (classifyMessage resp).label ∈ validTopics) := by
  have hsome : ∀ s : String, classifyMessage (some s) =
      match topicFromLabel? (jsTrimLower s) with
      | some t => t
      | none => Topic.generalDiscussion := fun _ => rfl
  refine ⟨rfl, ?_, ?_, ?_⟩
  · intro s h
    rw [hsome, topicFromLabel?_of_not_mem _ h]
  · intro s h
    obtain ⟨t, ht, hl⟩ := topicFromLabel?_of_mem _ h
    rw [hsome, ht]
    exact hl
  · intro resp
    cases resp with
    | none => decide
    | some s =>
      rw [hsome]
      cases htl : topicFromLabel? (jsTrimLower s) with
      | none => decide
      | some t => cases t <;> decide

/-- Witness for C4 at a concrete service response carrying surrounding
whitespace and capital letters. -/
theorem classify_total_spec_witness :
    (classifyMessage (some " Feature-Request ")).label = jsTrimLower " Feature-Request " :=
  classify_total_spec.2.2.1 " Feature-Request " (by decide)

/-- C2 (amended): the two snapshot reads share one try/catch.  A missing
message file still lets the conversation snapshot load; a corrupt (or
missing) conversation file leaves the already-loaded message ledger in
place; but a corrupt message file aborts the whole load and both stores
start empty.  load() itself never raises (totality of the model). -/
theorem load_amended :
    (∀ convs : ConvMap, loadPersistedData FileState.missing (FileState.ok convs) =
      (emptyLedger, convs)) ∧
    (∀ msgs, loadPersistedData (FileState.ok msgs) FileState.corrupt =
      (⟨msgs, rebuildCounts msgs⟩, [])) ∧
    (∀ msgs, loadPersistedData (FileState.ok msgs) FileState.missing =
      (⟨msgs, rebuildCounts msgs⟩, [])) ∧
    (∀ convFile, loadPersistedData FileState.corrupt convFile = (emptyLedger, [])) ∧
    loadPersistedData FileState.missing FileState.missing = (emptyLedger, []) ∧
    loadPersistedData FileState.missing FileState.corrupt = (emptyLedger, []) :=
  ⟨fun _ => rfl, fun _ => rfl, fun _ => rfl, fun _ => rfl, rfl, rfl⟩

/-- C2 counterexample: with a corrupt message file and a valid non-empty
conversation file, the conversation store comes up empty — the parse
failure of the first file jumps over the second file's load, so the
stores are not read independently. -/
theorem load_independent_cex :
    (loadPersistedData FileState.corrupt (FileState.ok cexConvData)).2 = [] ∧
    cexConvData ≠ ([] : ConvMap) :=
  ⟨rfl, by decide⟩

/-- C10: hasPersistedData() is true exactly when the in-memory message
log is non-empty; conversation snapshots alone never count, so after a
load that restored only the conversation file the historical backfill is
not skipped. -/
theorem hasPersistedData_spec :
    (∀ s : LedgerState, hasPersistedData s = true ↔ s.messages ≠ []) ∧
    (∀ convFile, skipsHistoricalFetch (loadPersistedData FileState.missing convFile).1 = false) := by
  constructor
  · intro s
    simp [hasPersistedData, List.length_pos]
  · intro cf
    cases cf <;> rfl

/-- C3: a decision action whose id has no pending record is a no-op that
reports the explicit expired notice: the handler state (pending map and
analytics ledger alike) is returned unchanged and no exception can
occur (the model is total). -/
theorem decision_unknown_id_safe (s : AgentState) (actionId value : String)
    (hview : ¬ actionId = "view_discord")
    (hmiss : findVal s.pendingResponses value = none) :
    handleBlockAction s actionId value = (s, SlackEffect.expiredNotice) := by
  unfold handleBlockAction
  rw [if_neg hview, hmiss]

/-- Witness for C3: an approve click for an id that was never (or is no
longer) pending. -/
theorem decision_unknown_id_safe_witness :
    handleBlockAction ⟨[], emptyLedger⟩ "approve_m1" "m1" =
      (⟨[], emptyLedger⟩, SlackEffect.expiredNotice) :=
  decision_unknown_id_safe ⟨[], emptyLedger⟩ "approve_m1" "m1" (by decide) rfl

/-- The help-topic extraction can never produce the empty string: both
fallbacks and the non-empty branch rule it out. -/
theorem extractHelpTopic_ne_empty (resp : Option String) : ¬ extractHelpTopic resp = "" := by
  cases resp with
  | none => decide
  | some s =>
    show ¬ (if jsTrimLower s = "" then "general help" else jsTrimLower s) = ""
    by_cases h : jsTrimLower s = ""
    · rw [if_pos h]; decide
    · rw [if_neg h]; exact h

/-- Every message a record-operation run appends satisfies the C9 field
discipline. -/
theorem helpTopicOk_applyRecordOps (ops : List RecordOp) (s : LedgerState)
    (h : ∀ m ∈ s.messages,
      (m.channel = "help" → ∃ hs, m.helpTopic = some hs ∧ ¬ hs = "" ∧ helpPred m = true) ∧
      (¬ m.channel = "help" → m.helpTopic = none)) :
    ∀ m ∈ (applyRecordOps ops s).messages,
      (m.channel = "help" → ∃ hs, m.helpTopic = some hs ∧ ¬ hs = "" ∧ helpPred m = true) ∧
      (¬ m.channel = "help" → m.helpTopic = none) := by
  induction ops generalizing s with
  | nil => exact h
  | cons op r ih =>
    refine ih (applyRecordOp s op) ?_
    cases op with
    | topicOnly channel topic => exact h
    | message content author channel topic helpResp threadId threadName messageId channelId now =>
      intro m hm
      rcases List.mem_append.mp hm with hm1 | hm2
      · exact h m hm1
      · rcases List.mem_singleton.mp hm2 with rfl
        constructor
        · intro hch
          have hch' : channel = "help" := hch
          refine ⟨extractHelpTopic helpResp, ?_, extractHelpTopic_ne_empty helpResp, ?_⟩
          · show (if channel = "help" then some (extractHelpTopic helpResp) else none) =
              some (extractHelpTopic helpResp)
            rw [if_pos hch']
          · show (decide (channel = "help") &&
              optTruthy (if channel = "help" then some (extractHelpTopic helpResp) else none)) =
              true
            rw [hch']
            simp [optTruthy, extractHelpTopic_ne_empty helpResp]
        · intro hch
          have hch' : ¬ channel = "help" := hch
          show (if channel = "help" then some (extractHelpTopic helpResp) else none) = none
          rw [if_neg hch']

/-- C9: starting from the empty ledger, every message recorded by
recordMessage under the help channel carries a present, non-empty
helpTopic (so it passes the getTopHelpTopics filter), and every message
recorded under any other channel has no helpTopic. -/
theorem help_messages_have_topic (ops : List RecordOp) :
    ∀ m ∈ (applyRecordOps ops emptyLedger).messages,
      (m.channel = "help" → ∃ hs, m.helpTopic = some hs ∧ ¬ hs = "" ∧ helpPred m = true) ∧
      (¬ m.channel = "help" → m.helpTopic = none) :=
  helpTopicOk_applyRecordOps ops emptyLedger (by intro m hm; cases hm)

/-- Witness for C9: a single help-channel recording, with the extraction
service answering "SSH issues". -/
theorem help_messages_have_topic_witness :
    ∃ hs, (⟨"c", "b", "help", Topic.question, some "ssh issues", 5, none, none, none, none⟩ :
        TrackedMessage).helpTopic = some hs ∧ ¬ hs = "" ∧
      helpPred ⟨"c", "b", "help", Topic.question, some "ssh issues", 5, none, none, none, none⟩ = true :=
  (help_messages_have_topic
    [RecordOp.message "c" "b" "help" Topic.question (some "SSH issues") none none none none 5]
    ⟨"c", "b", "help", Topic.question, some "ssh issues", 5, none, none, none, none⟩
    (by decide)).1 (by decide)

/-- The nested-counter read after one counter increment: the targeted
cell gains one, every other cell is untouched. -/
theorem summary_bumpCount (channel : String) (topic : Topic) (ch : String) (t : Topic)
    (m : List (String × List (Topic × Nat))) :
    (findVal ((findVal (bumpCount channel topic m) ch).getD []) t).getD 0 =
      (findVal ((findVal m ch).getD []) t).getD 0 +
        (if channel = ch ∧ topic = t then 1 else 0) := by
  unfold bumpCount
  rw [findVal_bumpAssoc]
  by_cases hch : channel = ch
  · subst hch
    rw [if_pos rfl, Option.getD_some, findVal_bumpAssoc]
    by_cases ht : topic = t
    · subst ht
      rw [if_pos rfl, Option.getD_some, if_pos ⟨rfl, rfl⟩]
    · rw [if_neg (fun hc => ht hc.symm), if_neg (fun hc => ht hc.2)]
      rfl
  · rw [if_neg (fun hc => hch hc.symm), if_neg (fun hc => hch hc.1)]
    rfl

/-- The log fold after appending one message. -/
theorem logCount_append (msgs : List TrackedMessage) (msg : TrackedMessage)
    (ch : String) (t : Topic) :
    logCount (msgs ++ [msg]) ch t =
      logCount msgs ch t + (if msg.channel = ch ∧ msg.topic = t then 1 else 0) := by
  unfold logCount
  rw [List.filter_append, List.length_append]
  congr 1
  by_cases h : msg.channel = ch ∧ msg.topic = t
  · rw [if_pos h]
    simp [List.filter_cons, h]
  · rw [if_neg h]
    simp [List.filter_cons, h]

/-- One recordMessage call advances the counter cache and the log fold
identically. -/
theorem summary_fold_step (s : LedgerState) (op : RecordOp) (hop : op.isMessage = true)
    (h : ∀ ch t, summaryCount s ch t = logCount s.messages ch t) :
    ∀ ch t, summaryCount (applyRecordOp s op) ch t =
      logCount (applyRecordOp s op).messages ch t := by
  cases op with
  | topicOnly channel topic => simp [RecordOp.isMessage] at hop
  | message content author channel topic helpResp threadId threadName messageId channelId now =>
    intro ch t
    show (findVal ((findVal (bumpCount channel topic s.topicCounts) ch).getD []) t).getD 0 =
      logCount (s.messages ++
        [⟨content, author, channel, topic,
          if channel = "help" then some (extractHelpTopic helpResp) else none,
          now, threadId, threadName, messageId, channelId⟩]) ch t
    rw [summary_bumpCount,
      show (findVal ((findVal s.topicCounts ch).getD []) t).getD 0 =
        logCount s.messages ch t from h ch t,
      logCount_append]

/-- A run of recordMessage operations preserves the cache-equals-fold
invariant. -/
theorem summary_fold_aux (ops : List RecordOp) (s : LedgerState)
    (hops : ∀ op ∈ ops, op.isMessage = true)
    (h : ∀ ch t, summaryCount s ch t = logCount s.messages ch t) :
    ∀ ch t, summaryCount (applyRecordOps ops s) ch t =
      logCount (applyRecordOps ops s).messages ch t := by
  induction ops generalizing s with
  | nil => exact h
  | cons op r ih =>
    exact ih (applyRecordOp s op)
      (fun o ho => hops o (List.mem_cons_of_mem _ ho))
      (summary_fold_step s op (hops op (List.mem_cons_self _ _)) h)

/-- C1 (amended): for every sequence of recordMessage operations from
the empty state, the per-channel per-topic counters behind
getTopicSummary() equal the fold over the full log returned by
getAllMessages().  (recordTopic calls break the equality — see the
counterexample — so the invariant holds of the log-appending operation
only.) -/
theorem summary_fold_amended (ops : List RecordOp) (hops : ∀ op ∈ ops, op.isMessage = true)
    (ch : String) (t : Topic) :
    summaryCount (applyRecordOps ops emptyLedger) ch t =
      logCount (getAllMessages (applyRecordOps ops emptyLedger)) ch t :=
  summary_fold_aux ops emptyLedger hops (fun _ _ => rfl) ch t

/-- Witness for C1 at a single concrete recordMessage call. -/
theorem summary_fold_amended_witness :
    summaryCount (applyRecordOps
        [RecordOp.message "hi" "bob" "general" Topic.praise none none none none none 3]
        emptyLedger) "general" Topic.praise =
      logCount (getAllMessages (applyRecordOps
        [RecordOp.message "hi" "bob" "general" Topic.praise none none none none none 3]
        emptyLedger)) "general" Topic.praise :=
  summary_fold_amended
    [RecordOp.message "hi" "bob" "general" Topic.praise none none none none none 3]
    (by decide) "general" Topic.praise

/-- Conversation runs compose over list append. -/
theorem applyConvOps_append (l1 l2 : List ConvOp) (conv : ConvMap) :
    applyConvOps (l1 ++ l2) conv = applyConvOps l2 (applyConvOps l1 conv) := by
  induction l1 generalizing conv with
  | nil => rfl
  | cons op r ih => exact ih (applyConvOp conv op)

/-- Reading another user's history is unaffected by an append. -/
theorem findVal_addToConversation_ne (t : Int) (uid u : String) (role : ConvRole)
    (content : String) (conv : ConvMap) (h : ¬ u = uid) :
    findVal (addToConversation t uid role content conv) u = findVal conv u := by
  show findVal (mapSet uid ((((findVal conv uid).getD []).filter
      (fun m => decide (t - retentionMs < m.timestamp))) ++ [⟨role, content, t⟩]) conv) u =
    findVal conv u
  rw [findVal_mapSet, if_neg h]

/-- Reading the appending user's history: the stored list is the pruned
old history with the new turn at the end. -/
theorem findVal_addToConversation_self (t : Int) (uid : String) (role : ConvRole)
    (content : String) (conv : ConvMap) :
    (findVal (addToConversation t uid role content conv) uid).getD [] =
      (((findVal conv uid).getD []).filter
        (fun m => decide (t - retentionMs < m.timestamp))) ++ [⟨role, content, t⟩] := by
  show (findVal (mapSet uid ((((findVal conv uid).getD []).filter
      (fun m => decide (t - retentionMs < m.timestamp))) ++ [⟨role, content, t⟩]) conv) uid).getD [] = _
  rw [findVal_mapSet, if_pos rfl, Option.getD_some]

/-- A stored turn survives every later operation that neither clears its
user nor appends for that user at or after the turn's expiry instant. -/
theorem turn_mem_applyConvOps (post : List ConvOp) (u : String) (τ : ConversationMessage)
    (conv : ConvMap)
    (hclear : ∀ op ∈ post, ConvOp.clearsUser u op = false)
    (happend : ∀ op ∈ post, ∀ t r c, op = ConvOp.append t u r c → t < τ.timestamp + retentionMs)
    (hmem : τ ∈ (findVal conv u).getD []) :
    τ ∈ (findVal (applyConvOps post conv) u).getD [] := by
  induction post generalizing conv with
  | nil => exact hmem
  | cons op r ih =>
    refine ih (applyConvOp conv op) (fun o ho => hclear o (List.mem_cons_of_mem _ ho))
      (fun o ho => happend o (List.mem_cons_of_mem _ ho)) ?_
    cases op with
    | clear uid =>
      have hcu := hclear _ (List.mem_cons_self _ _)
      have hne : ¬ u = uid := by
        intro hc
        rw [show ConvOp.clearsUser u (ConvOp.clear uid) = decide (uid = u) from rfl,
          hc, decide_eq_false_iff_not] at hcu
        exact hcu rfl
      show τ ∈ (findVal (mapDelete uid conv) u).getD []
      rw [findVal_mapDelete uid u conv hne]
      exact hmem
    | append t uid irole icontent =>
      by_cases huid : uid = u
      · subst huid
        have ht : t < τ.timestamp + retentionMs :=
          happend _ (List.mem_cons_self _ _) t irole icontent rfl
        show τ ∈ (findVal (addToConversation t uid irole icontent conv) uid).getD []
        rw [findVal_addToConversation_self]
        refine List.mem_append.mpr (Or.inl (List.mem_filter.mpr ⟨hmem, ?_⟩))
        simp only [decide_eq_true_eq]
        omega
      · show τ ∈ (findVal (addToConversation t uid irole icontent conv) u).getD []
        rw [findVal_addToConversation_ne t uid u irole icontent conv
          (fun hc => huid hc.symm)]
        exact hmem

/-- C8: a turn appended at time T is absent from every history read at
or beyond T + 168h — unconditionally over the later operations, so in
particular also when a later append prunes the expired turn before the
read; and it is present in every read strictly before T + 168h provided
no clear is issued for its user in between and every later append for
that user happens before the turn's expiry (the well-formedness of a
forward-moving clock, under which such an append cannot prune a turn
that is still live at the read). -/
theorem conversation_retention (pre post : List ConvOp) (u : String) (role : ConvRole)
    (content : String) (T Tr : Int) :
    ((∀ op ∈ post, ConvOp.clearsUser u op = false) →
      (∀ op ∈ post, ∀ t r c, op = ConvOp.append t u r c → t < T + retentionMs) →
      Tr < T + retentionMs →
      (⟨role, content, T⟩ : ConversationMessage) ∈ getConversationHistory Tr u
        (applyConvOps (pre ++ ConvOp.append T u role content :: post) [])) ∧
    (T + retentionMs ≤ Tr →
      (⟨role, content, T⟩ : ConversationMessage) ∉ getConversationHistory Tr u
        (applyConvOps (pre ++ ConvOp.append T u role content :: post) [])) := by
  constructor
  · intro hclear happend hTr
    have hsplit : applyConvOps (pre ++ ConvOp.append T u role content :: post) ([] : ConvMap) =
        applyConvOps post (addToConversation T u role content (applyConvOps pre [])) := by
      rw [applyConvOps_append]
      rfl
    have hstore : (⟨role, content, T⟩ : ConversationMessage) ∈
        (findVal (applyConvOps (pre ++ ConvOp.append T u role content :: post) ([] : ConvMap))
          u).getD [] := by
      rw [hsplit]
      refine turn_mem_applyConvOps post u ⟨role, content, T⟩ _ hclear happend ?_
      rw [findVal_addToConversation_self]
      exact List.mem_append.mpr (Or.inr (List.mem_singleton.mpr rfl))
    have hres : (⟨role, content, T⟩ : ConversationMessage) ∈
        ((findVal (applyConvOps (pre ++ ConvOp.append T u role content :: post)
          ([] : ConvMap)) u).getD []).filter
            (fun m => decide (Tr - retentionMs < m.timestamp)) :=
      List.mem_filter.mpr ⟨hstore, by simp only [decide_eq_true_eq]; omega⟩
    exact hres
  · intro hTr hmem
    have hmem2 : (⟨role, content, T⟩ : ConversationMessage) ∈
        ((findVal (applyConvOps (pre ++ ConvOp.append T u role content :: post)
          ([] : ConvMap)) u).getD []).filter
            (fun m => decide (Tr - retentionMs < m.timestamp)) := hmem
    have h2 := (List.mem_filter.mp hmem2).2
    simp only [decide_eq_true_eq] at h2
    omega

/-- Witness for C8: a lone append read one millisecond later is present;
and a turn whose expiry has passed is absent from a read at exactly
T + 168h even when a later append for the same user — which prunes the
expired turn before inserting — sits between the two. -/
theorem conversation_retention_witness :
    ((⟨ConvRole.user, "hi", 0⟩ : ConversationMessage) ∈ getConversationHistory 1 "alice"
      (applyConvOps ([] ++ ConvOp.append 0 "alice" ConvRole.user "hi" :: []) [])) ∧
    ((⟨ConvRole.user, "hi", 0⟩ : ConversationMessage) ∉ getConversationHistory retentionMs
      "alice" (applyConvOps ([] ++ ConvOp.append 0 "alice" ConvRole.user "hi" ::
        [ConvOp.append retentionMs "alice" ConvRole.user "later"]) [])) :=
  ⟨(conversation_retention [] [] "alice" ConvRole.user "hi" 0 1).1
      (by intro op hop; cases hop) (by intro op hop; cases hop) (by decide),
    (conversation_retention [] [ConvOp.append retentionMs "alice" ConvRole.user "later"]
      "alice" ConvRole.user "hi" 0 retentionMs).2 (by omega)⟩

/-- Insertion keeps exactly the inserted element plus the old ones. -/
theorem insertCntDesc_perm (cnt : α → Nat) (a : α) (l : List α) :
    List.Perm (insertCntDesc cnt a l) (a :: l) := by
  induction l with
  | nil => exact List.Perm.refl _
  | cons b t ih =>
    by_cases h : cnt b ≤ cnt a
    · rw [show insertCntDesc cnt a (b :: t) = a :: b :: t from by simp [insertCntDesc, h]]
    · rw [show insertCntDesc cnt a (b :: t) = b :: insertCntDesc cnt a t from by
        simp [insertCntDesc, h]]
      exact (ih.cons b).trans (List.Perm.swap a b t)

/-- The stable sort permutes its input. -/
theorem sortCntDesc_perm (cnt : α → Nat) (l : List α) :
    List.Perm (sortCntDesc cnt l) l := by
  induction l with
  | nil => exact List.Perm.refl _
  | cons x r ih =>
    show List.Perm (insertCntDesc cnt x (sortCntDesc cnt r)) (x :: r)
    exact (insertCntDesc_perm cnt x _).trans (ih.cons x)

/-- Insertion into a descending-count list keeps it descending. -/
theorem pairwise_ge_insertCntDesc (cnt : α → Nat) (a : α) (l : List α)
    (h : l.Pairwise (fun x y => cnt y ≤ cnt x)) :
    (insertCntDesc cnt a l).Pairwise (fun x y => cnt y ≤ cnt x) := by
  induction l with
  | nil => exact List.pairwise_singleton _ _
  | cons b t ih =>
    rw [List.pairwise_cons] at h
    by_cases hc : cnt b ≤ cnt a
    · rw [show insertCntDesc cnt a (b :: t) = a :: b :: t from by simp [insertCntDesc, hc]]
      rw [List.pairwise_cons]
      refine ⟨?_, List.pairwise_cons.mpr h⟩
      intro y hy
      rcases List.mem_cons.mp hy with rfl | hyt
      · exact hc
      · exact le_trans (h.1 y hyt) hc
    · rw [show insertCntDesc cnt a (b :: t) = b :: insertCntDesc cnt a t from by
        simp [insertCntDesc, hc]]
      rw [List.pairwise_cons]
      refine ⟨?_, ih h.2⟩
      intro y hy
      have hy2 := (insertCntDesc_perm cnt a t).mem_iff.mp hy
      rcases List.mem_cons.mp hy2 with rfl | hyt
      · exact Nat.le_of_lt (Nat.lt_of_not_le hc)
      · exact h.1 y hyt

/-- The stable sort output is descending in the count. -/
theorem pairwise_ge_sortCntDesc (cnt : α → Nat) (l : List α) :
    (sortCntDesc cnt l).Pairwise (fun x y => cnt y ≤ cnt x) := by
  induction l with
  | nil => exact List.Pairwise.nil
  | cons x r ih => exact pairwise_ge_insertCntDesc cnt x _ ih

section TallyLemmas

variable {σ κ ν : Type} [DecidableEq κ]

/-- The count a counting fold stores under each key equals the number of
stream elements carrying that key. -/
theorem genTally_count (key : σ → κ) (upd : σ → Option ν → ν) (cval : ν → Nat)
    (h0 : ∀ x, cval (upd x none) = 1) (h1 : ∀ x v, cval (upd x (some v)) = cval v + 1)
    (f : List σ) (k : κ) :
    ((findVal (f.foldl (fun acc x => bumpAssoc (upd x) (key x) acc) []) k).map cval).getD 0 =
      (f.filter (fun x => decide (key x = k))).length := by
  induction f using List.reverseRecOn with
  | nil => rfl
  | append_singleton f x ih =>
    rw [List.foldl_append]
    show ((findVal (bumpAssoc (upd x) (key x)
        (f.foldl (fun acc x => bumpAssoc (upd x) (key x) acc) [])) k).map cval).getD 0 = _
    rw [findVal_bumpAssoc, List.filter_append, List.length_append]
    by_cases hk : k = key x
    · subst hk
      rw [if_pos rfl, ← ih]
      have hsing : (List.filter (fun x' => decide (key x' = key x)) [x]).length = 1 := by
        simp [List.filter_cons]
      rw [hsing]
      cases hfind : findVal (f.foldl (fun acc x => bumpAssoc (upd x) (key x) acc) []) (key x) with
      | none =>
        simp only [Option.map_some', Option.getD_some, Option.map_none', Option.getD_none, h0]
      | some v =>
        simp only [Option.map_some', Option.getD_some, h1]
    · rw [if_neg hk, ih]
      have hkx : ¬ key x = k := fun hc => hk hc.symm
      have hsing : (List.filter (fun x' => decide (key x' = k)) [x]).length = 0 := by
        simp [List.filter_cons, hkx]
      rw [hsing]
      rfl

/-- The keys a counting fold accumulates are exactly the keys of the
stream. -/
theorem genTally_mem_keys (key : σ → κ) (upd : σ → Option ν → ν) (f : List σ) (k : κ) :
    k ∈ (f.foldl (fun acc x => bumpAssoc (upd x) (key x) acc) []).map Prod.fst ↔
      k ∈ f.map key := by
  induction f using List.reverseRecOn with
  | nil => simp
  | append_singleton f x ih =>
    rw [List.foldl_append]
    show k ∈ (bumpAssoc (upd x) (key x)
        (f.foldl (fun acc x => bumpAssoc (upd x) (key x) acc) [])).map Prod.fst ↔ _
    rw [mem_keys_bumpAssoc, List.map_append, ih]
    simp [or_comm]

/-- The key column of a counting fold is duplicate-free. -/
theorem genTally_nodup_keys (key : σ → κ) (upd : σ → Option ν → ν) (f : List σ) :
    ((f.foldl (fun acc x => bumpAssoc (upd x) (key x) acc) []).map Prod.fst).Nodup := by
  induction f using List.reverseRecOn with
  | nil => exact List.nodup_nil
  | append_singleton f x ih =>
    rw [List.foldl_append]
    exact nodup_keys_bumpAssoc _ _ _ ih

end TallyLemmas

/-- C6: getTopThreads counts only messages with both a truthy threadId
and threadName, groups them by threadId, keeps only threads with at
least minReplies messages, and returns at most limit entries sorted by
count descending; and on the concrete scenario C log (6 Alpha messages,
4 Beta messages), getTopThreads 5 5 returns exactly the Alpha entry with
reply count 6. -/
theorem topThreads_spec (msgs : List TrackedMessage) (minReplies limit : Nat) :
    (getTopThreads minReplies limit msgs).length ≤ limit ∧
    (∀ e ∈ getTopThreads minReplies limit msgs,
      minReplies ≤ e.2.2 ∧ e.2.2 = threadLogCount msgs e.1) ∧
    (getTopThreads minReplies limit msgs).Pairwise (fun a b => b.2.2 ≤ a.2.2) ∧
    getTopThreads 5 5 scenarioCMsgs = [("alpha", "Alpha", 6)] := by
  refine ⟨?_, ?_, ?_, by decide⟩
  · show ((sortCntDesc (fun x => x.2.2)
      (((threadTally msgs).filter (fun e => decide (minReplies ≤ e.2.2))).map
        (fun e => (e.1, e.2.1, e.2.2)))).take limit).length ≤ limit
    rw [List.length_take]
    exact min_le_left _ _
  · intro e he
    have he1 : e ∈ sortCntDesc (fun x => x.2.2)
        (((threadTally msgs).filter (fun en => decide (minReplies ≤ en.2.2))).map
          (fun en => (en.1, en.2.1, en.2.2))) :=
      (List.take_sublist limit _).subset he
    have he2 : e ∈ ((threadTally msgs).filter (fun en => decide (minReplies ≤ en.2.2))).map
        (fun en => (en.1, en.2.1, en.2.2)) :=
      (sortCntDesc_perm _ _).mem_iff.mp he1
    obtain ⟨en, hen, rfl⟩ := List.mem_map.mp he2
    obtain ⟨hen1, hen2⟩ := List.mem_filter.mp hen
    refine ⟨of_decide_eq_true hen2, ?_⟩
    have hnod := genTally_nodup_keys (fun m : TrackedMessage => m.threadId.getD "")
      (fun m cur => match cur with
        | none => (m.threadName.getD "", 1)
        | some v => (v.1, v.2 + 1))
      (msgs.filter threadPred)
    have hself : findVal (threadTally msgs) en.1 = some en.2 :=
      findVal_self_of_mem hnod hen1
    have hcnt := genTally_count (fun m : TrackedMessage => m.threadId.getD "")
      (fun m cur => match cur with
        | none => (m.threadName.getD "", 1)
        | some v => (v.1, v.2 + 1))
      (fun v : String × Nat => v.2) (fun _ => rfl) (fun _ _ => rfl)
      (msgs.filter threadPred) en.1
    rw [show (msgs.filter threadPred).foldl
        (fun acc x => bumpAssoc
          ((fun m cur => match cur with
            | none => (m.threadName.getD "", 1)
            | some v => (v.1, v.2 + 1)) x)
          ((fun m : TrackedMessage => m.threadId.getD "") x) acc) [] = threadTally msgs
      from rfl, hself] at hcnt
    rw [List.filter_filter] at hcnt
    simp only [Option.map_some', Option.getD_some] at hcnt
    exact hcnt
  · exact (pairwise_ge_sortCntDesc _ _).sublist (List.take_sublist _ _)

/-- Witness for C6 on the scenario C log: the Alpha entry really carries
the count the log fold gives it. -/
theorem topThreads_spec_witness :
    5 ≤ (("alpha", "Alpha", 6) : String × String × Nat).2.2 ∧
    (("alpha", "Alpha", 6) : String × String × Nat).2.2 = threadLogCount scenarioCMsgs "alpha" :=
  (topThreads_spec scenarioCMsgs 5 5).2.1 ("alpha", "Alpha", 6) (by decide)

/-- findIdx ignores a right extension when a hit exists on the left. -/
theorem findIdx_append_left (p : α → Bool) (l1 l2 : List α) (h : ∃ x ∈ l1, p x = true) :
    (l1 ++ l2).findIdx p = l1.findIdx p := by
  induction l1 with
  | nil =>
    obtain ⟨x, hx, _⟩ := h
    cases hx
  | cons a r ih =>
    cases hpa : p a with
    | true => simp [List.findIdx_cons, hpa]
    | false =>
      have h2 : ∃ x ∈ r, p x = true := by
        obtain ⟨x, hx, hpx⟩ := h
        rcases List.mem_cons.mp hx with rfl | hxr
        · rw [hpa] at hpx; cases hpx
        · exact ⟨x, hxr, hpx⟩
      simp [List.findIdx_cons, hpa, ih h2]

/-- findIdx skips a fully missing left part. -/
theorem findIdx_append_right (p : α → Bool) (l1 l2 : List α) (h : ∀ x ∈ l1, p x = false) :
    (l1 ++ l2).findIdx p = l1.length + l2.findIdx p := by
  induction l1 with
  | nil => simp
  | cons a r ih =>
    have hpa : p a = false := h a (List.mem_cons_self _ _)
    have ihr := ih (fun x hx => h x (List.mem_cons_of_mem _ hx))
    simp only [List.cons_append, List.findIdx_cons, hpa, cond_false, List.length_cons, ihr]
    omega

/-- The key column of a counting fold is ordered by first occurrence in
the stream's key sequence. -/
theorem genTally_keys_order {σ κ ν : Type} [DecidableEq κ]
    (key : σ → κ) (upd : σ → Option ν → ν) (f : List σ) :
    ((f.foldl (fun acc x => bumpAssoc (upd x) (key x) acc) []).map Prod.fst).Pairwise
      (fun a b => (f.map key).findIdx (fun s => decide (s = a)) <
        (f.map key).findIdx (fun s => decide (s = b))) := by
  induction f using List.reverseRecOn with
  | nil => exact List.Pairwise.nil
  | append_singleton f x ih =>
    rw [List.foldl_append]
    show ((bumpAssoc (upd x) (key x)
        (f.foldl (fun acc x => bumpAssoc (upd x) (key x) acc) [])).map Prod.fst).Pairwise _
    rw [keys_bumpAssoc, List.map_append]
    by_cases hk : key x ∈
        (f.foldl (fun acc x => bumpAssoc (upd x) (key x) acc) []).map Prod.fst
    · rw [if_pos hk]
      refine ih.imp_of_mem ?_
      intro a b ha hb hab
      have ha2 : a ∈ f.map key := (genTally_mem_keys key upd f a).mp ha
      have hb2 : b ∈ f.map key := (genTally_mem_keys key upd f b).mp hb
      rw [findIdx_append_left _ _ _ ⟨a, ha2, by simp⟩,
        findIdx_append_left _ _ _ ⟨b, hb2, by simp⟩]
      exact hab
    · rw [if_neg hk, List.pairwise_append]
      refine ⟨?_, List.pairwise_singleton _ _, ?_⟩
      · refine ih.imp_of_mem ?_
        intro a b ha hb hab
        have ha2 : a ∈ f.map key := (genTally_mem_keys key upd f a).mp ha
        have hb2 : b ∈ f.map key := (genTally_mem_keys key upd f b).mp hb
        rw [findIdx_append_left _ _ _ ⟨a, ha2, by simp⟩,
          findIdx_append_left _ _ _ ⟨b, hb2, by simp⟩]
        exact hab
      · intro a ha b hb
        have hb2 : b = key x := List.mem_singleton.mp hb
        subst hb2
        have ha2 : a ∈ f.map key := (genTally_mem_keys key upd f a).mp ha
        have hbnot : ∀ s ∈ f.map key, decide (s = key x) = false := by
          intro s hs
          have hne : ¬ s = key x := by
            intro hc
            exact hk ((genTally_mem_keys key upd f (key x)).mpr (hc ▸ hs))
          simpa using hne
        rw [findIdx_append_left _ _ _ ⟨a, ha2, by simp⟩,
          findIdx_append_right _ _ _ hbnot]
        have hlt := List.findIdx_lt_length_of_exists
          (⟨a, ha2, by simp⟩ : ∃ y ∈ f.map key, (fun s => decide (s = a)) y = true)
        omega

/-- Insertion into a list sorted by count descending with ties ordered
by an index keeps it so, provided the inserted element's index is below
every present index. -/
theorem pairwise_lex_insertCntDesc (cnt idx : α → Nat) (a : α) (l : List α)
    (hl : l.Pairwise (fun x y => cnt y < cnt x ∨ (cnt x = cnt y ∧ idx x < idx y)))
    (ha : ∀ b ∈ l, idx a < idx b) :
    (insertCntDesc cnt a l).Pairwise
      (fun x y => cnt y < cnt x ∨ (cnt x = cnt y ∧ idx x < idx y)) := by
  induction l with
  | nil => exact List.pairwise_singleton _ _
  | cons b t ih =>
    rw [List.pairwise_cons] at hl
    by_cases hc : cnt b ≤ cnt a
    · rw [show insertCntDesc cnt a (b :: t) = a :: b :: t from by simp [insertCntDesc, hc]]
      rw [List.pairwise_cons]
      refine ⟨?_, List.pairwise_cons.mpr hl⟩
      intro y hy
      rcases List.mem_cons.mp hy with rfl | hyt
      · rcases Nat.lt_or_eq_of_le hc with h | h
        · exact Or.inl h
        · exact Or.inr ⟨h.symm, ha y (List.mem_cons_self _ _)⟩
      · have hyb : cnt y ≤ cnt b := by
          rcases hl.1 y hyt with h | h
          · exact Nat.le_of_lt h
          · exact Nat.le_of_eq h.1.symm
        rcases Nat.lt_or_eq_of_le (le_trans hyb hc) with h | h
        · exact Or.inl h
        · exact Or.inr ⟨h.symm, ha y (List.mem_cons_of_mem _ hyt)⟩
    · rw [show insertCntDesc cnt a (b :: t) = b :: insertCntDesc cnt a t from by
        simp [insertCntDesc, hc]]
      rw [List.pairwise_cons]
      refine ⟨?_, ih hl.2 (fun y hy => ha y (List.mem_cons_of_mem _ hy))⟩
      intro y hy
      have hy2 := (insertCntDesc_perm cnt a t).mem_iff.mp hy
      rcases List.mem_cons.mp hy2 with rfl | hyt
      · exact Or.inl (Nat.lt_of_not_le hc)
      · exact hl.1 y hyt

/-- Sorting a list whose elements are strictly ordered by an index gives
the unique stable descending order: counts descend, and equal counts
keep the index order. -/
theorem pairwise_lex_sortCntDesc (cnt idx : α → Nat) (l : List α)
    (h : l.Pairwise (fun x y => idx x < idx y)) :
    (sortCntDesc cnt l).Pairwise
      (fun x y => cnt y < cnt x ∨ (cnt x = cnt y ∧ idx x < idx y)) := by
  induction l with
  | nil => exact List.Pairwise.nil
  | cons x r ih =>
    rw [List.pairwise_cons] at h
    show (insertCntDesc cnt x (sortCntDesc cnt r)).Pairwise _
    refine pairwise_lex_insertCntDesc cnt idx x _ (ih h.2) ?_
    intro b hb
    exact h.1 b ((sortCntDesc_perm cnt r).mem_iff.mp hb)

/-- Filtering after a map counts the same elements as filtering the
composed predicate. -/
theorem length_filter_map_eq {σ κ : Type} (g : σ → κ) (p : κ → Bool) (l : List σ) :
    ((l.map g).filter p).length = (l.filter (fun a => p (g a))).length := by
  induction l with
  | nil => rfl
  | cons a r ih =>
    rw [List.map_cons, List.filter_cons, List.filter_cons]
    cases hp : p (g a) with
    | true => rw [if_pos rfl, if_pos rfl, List.length_cons, List.length_cons, ih]
    | false =>
      rw [if_neg Bool.false_ne_true, if_neg Bool.false_ne_true]
      exact ih

/-- C5: getTopHelpTopics groups the help-channel messages carrying a
truthy helpTopic by normalized topic, counts occurrences against the
log, and returns at most limit entries sorted by count descending with
equal counts ordered by the first appearance of the normalized topic in
the log — the unique stable order, hence deterministic under reordering
of equal-count items. -/
theorem topHelpTopics_spec (msgs : List TrackedMessage) (limit : Nat) :
    (getTopHelpTopics limit msgs).length ≤ limit ∧
    (∀ p ∈ getTopHelpTopics limit msgs,
      p.1 ∈ seenTopics msgs ∧
      p.2 = ((msgs.filter helpPred).filter (fun m => decide (normTopicOf m = p.1))).length) ∧
    (getTopHelpTopics limit msgs).Pairwise
      (fun a b => b.2 < a.2 ∨ (a.2 = b.2 ∧
        (seenTopics msgs).findIdx (fun s => decide (s = a.1)) <
          (seenTopics msgs).findIdx (fun s => decide (s = b.1)))) := by
  refine ⟨?_, ?_, ?_⟩
  · show ((sortCntDesc (fun q : String × Nat => q.2) (tallyOf (seenTopics msgs))).take
      limit).length ≤ limit
    rw [List.length_take]
    exact min_le_left _ _
  · intro p hp
    have hp1 : p ∈ sortCntDesc (fun q : String × Nat => q.2) (tallyOf (seenTopics msgs)) :=
      (List.take_sublist limit _).subset hp
    have hp2 : p ∈ tallyOf (seenTopics msgs) := (sortCntDesc_perm _ _).mem_iff.mp hp1
    constructor
    · have hk : p.1 ∈ (tallyOf (seenTopics msgs)).map Prod.fst :=
        List.mem_map_of_mem Prod.fst hp2
      have hk2 : p.1 ∈ (seenTopics msgs).map (fun t => t) :=
        (genTally_mem_keys (fun t : String => t)
          (fun (_ : String) (c : Option Nat) => c.getD 0 + 1) (seenTopics msgs) p.1).mp hk
      rwa [List.map_id'] at hk2
    · have hnod : ((tallyOf (seenTopics msgs)).map Prod.fst).Nodup :=
        genTally_nodup_keys (fun t : String => t)
          (fun (_ : String) (c : Option Nat) => c.getD 0 + 1) (seenTopics msgs)
      have hself : findVal (tallyOf (seenTopics msgs)) p.1 = some p.2 :=
        findVal_self_of_mem hnod hp2
      have hcnt : ((findVal (tallyOf (seenTopics msgs)) p.1).map (fun n : Nat => n)).getD 0 =
          ((seenTopics msgs).filter (fun x => decide (x = p.1))).length :=
        genTally_count (fun t : String => t)
          (fun (_ : String) (c : Option Nat) => c.getD 0 + 1) (fun n : Nat => n)
          (fun _ => rfl) (fun _ _ => rfl) (seenTopics msgs) p.1
      rw [hself] at hcnt
      simp only [Option.map_some', Option.getD_some] at hcnt
      rw [hcnt]
      exact length_filter_map_eq normTopicOf (fun x => decide (x = p.1)) (msgs.filter helpPred)
  · have hord := genTally_keys_order (fun t : String => t)
      (fun (_ : String) (c : Option Nat) => c.getD 0 + 1) (seenTopics msgs)
    simp only [List.map_id'] at hord
    rw [List.pairwise_map] at hord
    have hlex := pairwise_lex_sortCntDesc (fun q : String × Nat => q.2)
      (fun q : String × Nat => (seenTopics msgs).findIdx (fun s => decide (s = q.1)))
      (tallyOf (seenTopics msgs)) hord
    exact hlex.sublist (List.take_sublist _ _)

/-- Witness for C5 on the scenario B log: the single returned entry
carries the topic first seen in the log and the log-folded count 3. -/
theorem topHelpTopics_spec_witness :
    ("vs code issue", 3).1 ∈ seenTopics scenarioBMsgs ∧
    ("vs code issue", 3).2 = ((scenarioBMsgs.filter helpPred).filter
      (fun m => decide (normTopicOf m = ("vs code issue", 3).1))).length :=
  (topHelpTopics_spec scenarioBMsgs 1).2.1 ("vs code issue", 3) (by decide)

/-- C1 counterexample: one recordTopic call makes the counter 1 while
the log stays empty, so the claimed equality fails for sequences that
include recordTopic. -/
theorem summary_fold_cex :
    ¬ summaryCount (applyRecordOps [RecordOp.topicOnly "general" Topic.praise] emptyLedger)
        "general" Topic.praise =
      logCount (getAllMessages (applyRecordOps [RecordOp.topicOnly "general" Topic.praise]
        emptyLedger)) "general" Topic.praise := by
  decide

section StringToolkit

variable {α : Type} [DecidableEq α]

/-- listStartsWith matches exactly the lists extending its pattern. -/
theorem listStartsWith_iff (p l : List α) :
    listStartsWith p l = true ↔ ∃ t, l = p ++ t := by
  induction p generalizing l with
  | nil =>
    constructor
    · intro _
      exact ⟨l, rfl⟩
    · intro _
      rfl
  | cons a p ih =>
    cases l with
    | nil =>
      constructor
      · intro h
        cases h
      · rintro ⟨t, ht⟩
        simp at ht
    | cons b l2 =>
      rw [show listStartsWith (a :: p) (b :: l2) = (decide (a = b) && listStartsWith p l2)
        from rfl, Bool.and_eq_true]
      constructor
      · rintro ⟨hab, hp⟩
        obtain ⟨t, rfl⟩ := (ih l2).mp hp
        exact ⟨t, by rw [of_decide_eq_true hab, List.cons_append]⟩
      · rintro ⟨t, ht⟩
        rw [List.cons_append] at ht
        injection ht with h1 h2
        subst h1
        exact ⟨by simp, (ih l2).mpr ⟨t, h2⟩⟩

/-- listEndsWith matches exactly the lists ending in its pattern. -/
theorem listEndsWith_iff (s l : List α) :
    listEndsWith s l = true ↔ ∃ t, l = t ++ s := by
  show listStartsWith s.reverse l.reverse = true ↔ _
  rw [listStartsWith_iff]
  constructor
  · rintro ⟨t, ht⟩
    refine ⟨t.reverse, ?_⟩
    have h2 := congrArg List.reverse ht
    rw [List.reverse_reverse, List.reverse_append, List.reverse_reverse] at h2
    exact h2
  · rintro ⟨t, rfl⟩
    exact ⟨t.reverse, by rw [List.reverse_append]⟩

/-- A list always ends with the block just appended. -/
theorem endsWith_append_self (s t : List α) : listEndsWith s (t ++ s) = true :=
  (listEndsWith_iff s (t ++ s)).mpr ⟨t, rfl⟩

/-- Reassembling a list from its prefix and a verified ending. -/
theorem endsWith_take_append (s l : List α) (h : listEndsWith s l = true) :
    l.take (l.length - s.length) ++ s = l := by
  obtain ⟨t, rfl⟩ := (listEndsWith_iff s l).mp h
  rw [List.length_append, Nat.add_sub_cancel, List.take_left]

/-- Of two anchored matches at the head, the shorter is a pattern of the
longer. -/
theorem startsWith_of_startsWith_le (a b l : List α)
    (ha : listStartsWith a l = true) (hb : listStartsWith b l = true)
    (hlen : a.length ≤ b.length) : listStartsWith a b = true := by
  induction a generalizing b l with
  | nil => rfl
  | cons x p ih =>
    cases b with
    | nil => simp at hlen
    | cons y q =>
      cases l with
      | nil => cases ha
      | cons z l2 =>
        rw [show listStartsWith (x :: p) (z :: l2) = (decide (x = z) && listStartsWith p l2)
          from rfl, Bool.and_eq_true] at ha
        rw [show listStartsWith (y :: q) (z :: l2) = (decide (y = z) && listStartsWith q l2)
          from rfl, Bool.and_eq_true] at hb
        rw [show listStartsWith (x :: p) (y :: q) = (decide (x = y) && listStartsWith p q)
          from rfl, Bool.and_eq_true]
        have hxz := of_decide_eq_true ha.1
        have hyz := of_decide_eq_true hb.1
        refine ⟨decide_eq_true (hxz.trans hyz.symm), ih q l2 ha.2 hb.2 ?_⟩
        simpa using hlen

/-- Of two suffixes of one list, the shorter is a suffix of the
longer. -/
theorem endsWith_of_endsWith_le (a b l : List α)
    (ha : listEndsWith a l = true) (hb : listEndsWith b l = true)
    (hlen : a.length ≤ b.length) : listEndsWith a b = true := by
  show listStartsWith a.reverse b.reverse = true
  exact startsWith_of_startsWith_le a.reverse b.reverse l.reverse ha hb (by simpa)

/-- Appending `rep` cannot create the ending `suf` when `suf` is at
least as long but does not itself end with `rep`'s tail — short-side
check. -/
theorem not_endsWith_append_short (suf rep p : List α)
    (hlen : rep.length ≤ suf.length) (hchk : listEndsWith rep suf = false) :
    listEndsWith suf (p ++ rep) = false := by
  cases h : listEndsWith suf (p ++ rep) with
  | false => rfl
  | true =>
    have h2 := endsWith_of_endsWith_le rep suf (p ++ rep) (endsWith_append_self rep p) h hlen
    rw [hchk] at h2
    cases h2

/-- Appending `rep` cannot create the ending `suf` when `rep` is at
least as long and does not end with `suf` — long-side check. -/
theorem not_endsWith_append_long (suf rep p : List α)
    (hlen : suf.length ≤ rep.length) (hchk : listEndsWith suf rep = false) :
    listEndsWith suf (p ++ rep) = false := by
  cases h : listEndsWith suf (p ++ rep) with
  | false => rfl
  | true =>
    have h2 := endsWith_of_endsWith_le suf rep (p ++ rep) h (endsWith_append_self rep p) hlen
    rw [hchk] at h2
    cases h2

end StringToolkit

/-- Every anchored-replace application either appended its replacement
or left the list alone because neither suffix matched. -/
theorem replaceOptS_cases (stem rep l : List Char) :
    (∃ p, replaceOptS stem rep l = p ++ rep) ∨
    (replaceOptS stem rep l = l ∧ listEndsWith (stem ++ ['s']) l = false ∧
      listEndsWith stem l = false) := by
  unfold replaceOptS
  by_cases h1 : listEndsWith (stem ++ ['s']) l = true
  · rw [if_pos h1]
    exact Or.inl ⟨_, rfl⟩
  · rw [if_neg h1]
    by_cases h2 : listEndsWith stem l = true
    · rw [if_pos h2]
      exact Or.inl ⟨_, rfl⟩
    · rw [if_neg h2]
      exact Or.inr ⟨rfl, Bool.eq_false_iff.mpr h1, Bool.eq_false_iff.mpr h2⟩

/-- A rule whose replacement equals its stem is the identity whenever
the plural form is absent: the singular branch rewrites the suffix to
itself. -/
theorem replaceOptS_self_noop (stem l : List Char)
    (h : listEndsWith (stem ++ ['s']) l = false) :
    replaceOptS stem stem l = l := by
  unfold replaceOptS
  rw [if_neg (by rw [h]; exact Bool.false_ne_true)]
  by_cases h2 : listEndsWith stem l = true
  · rw [if_pos h2]
    exact endsWith_take_append stem l h2
  · rw [if_neg h2]

/-- A rule is the identity when neither of its two suffix forms is
present. -/
theorem replaceOptS_noop (stem rep l : List Char)
    (h1 : listEndsWith (stem ++ ['s']) l = false) (h2 : listEndsWith stem l = false) :
    replaceOptS stem rep l = l := by
  unfold replaceOptS
  rw [if_neg (by rw [h1]; exact Bool.false_ne_true),
    if_neg (by rw [h2]; exact Bool.false_ne_true)]

/-- An absent ending stays absent across a rule application, checked on
whichever side is shorter. -/
theorem replaceOptS_not_ends_preserve (stem rep suf b : List Char)
    (hb : listEndsWith suf b = false)
    (hchk : (if rep.length ≤ suf.length then listEndsWith rep suf
      else listEndsWith suf rep) = false) :
    listEndsWith suf (replaceOptS stem rep b) = false := by
  rcases replaceOptS_cases stem rep b with ⟨p, hp⟩ | ⟨heq, _, _⟩
  · rw [hp]
    by_cases hlen : rep.length ≤ suf.length
    · rw [if_pos hlen] at hchk
      exact not_endsWith_append_short suf rep p hlen hchk
    · rw [if_neg hlen] at hchk
      exact not_endsWith_append_long suf rep p (Nat.le_of_not_le hlen) hchk
  · rw [heq]
    exact hb

/-- After a rule runs, its own plural ending is gone (either branch). -/
theorem replaceOptS_not_ends_intro_s (stem rep b : List Char)
    (hchk : (if rep.length ≤ (stem ++ ['s']).length then listEndsWith rep (stem ++ ['s'])
      else listEndsWith (stem ++ ['s']) rep) = false) :
    listEndsWith (stem ++ ['s']) (replaceOptS stem rep b) = false := by
  rcases replaceOptS_cases stem rep b with ⟨p, hp⟩ | ⟨heq, h1, _⟩
  · rw [hp]
    by_cases hlen : rep.length ≤ (stem ++ ['s']).length
    · rw [if_pos hlen] at hchk
      exact not_endsWith_append_short _ rep p hlen hchk
    · rw [if_neg hlen] at hchk
      exact not_endsWith_append_long _ rep p (Nat.le_of_not_le hlen) hchk
  · rw [heq]
    exact h1

/-- After a rule runs, its own singular ending is gone provided the
replacement does not reintroduce it. -/
theorem replaceOptS_not_ends_intro (stem rep b : List Char)
    (hchk : (if rep.length ≤ stem.length then listEndsWith rep stem
      else listEndsWith stem rep) = false) :
    listEndsWith stem (replaceOptS stem rep b) = false := by
  rcases replaceOptS_cases stem rep b with ⟨p, hp⟩ | ⟨heq, _, h2⟩
  · rw [hp]
    by_cases hlen : rep.length ≤ stem.length
    · rw [if_pos hlen] at hchk
      exact not_endsWith_append_short _ rep p hlen hchk
    · rw [if_neg hlen] at hchk
      exact not_endsWith_append_long _ rep p (Nat.le_of_not_le hlen) hchk
  · rw [heq]
    exact h2

/-- Lower-casing a character twice is the same as once. -/
theorem lcChar_idem (c : Char) : lcChar (lcChar c) = lcChar c := by
  cases hf : upperLowerTable.find? (fun p => p.1 = c) with
  | none =>
    have h : lcChar c = c := by unfold lcChar; rw [hf]
    rw [h]
    exact h
  | some p =>
    have hlc : lcChar c = p.2 := by unfold lcChar; rw [hf]
    have htab : ∀ q ∈ upperLowerTable,
        upperLowerTable.find? (fun e => e.1 = q.2) = none := by decide
    rw [hlc]
    rw [show lcChar p.2 = p.2 from by
      unfold lcChar; rw [htab p (List.mem_of_find?_eq_some hf)]]

/-- Trimming only removes characters. -/
theorem jsTrim_subset (l : List Char) : ∀ c ∈ jsTrim l, c ∈ l := by
  intro c hc
  unfold jsTrim at hc
  rw [List.mem_reverse] at hc
  have hc2 := (List.dropWhile_sublist isWsChar).subset hc
  rw [List.mem_reverse] at hc2
  exact (List.dropWhile_sublist isWsChar).subset hc2

/-- Whitespace collapsing only emits spaces or original characters. -/
theorem mem_collapseWsAux (b : Bool) (l : List Char) :
    ∀ c ∈ collapseWsAux b l, c = ' ' ∨ c ∈ l := by
  induction l generalizing b with
  | nil =>
    intro c hc
    cases hc
  | cons a r ih =>
    intro c hc
    by_cases hws : isWsChar a = true
    · cases b with
      | true =>
        rw [show collapseWsAux true (a :: r) = collapseWsAux true r from by
          simp [collapseWsAux, hws]] at hc
        rcases ih true c hc with h | h
        · exact Or.inl h
        · exact Or.inr (List.mem_cons_of_mem _ h)
      | false =>
        rw [show collapseWsAux false (a :: r) = ' ' :: collapseWsAux true r from by
          simp [collapseWsAux, hws]] at hc
        rcases List.mem_cons.mp hc with rfl | h
        · exact Or.inl rfl
        · rcases ih true c h with h2 | h2
          · exact Or.inl h2
          · exact Or.inr (List.mem_cons_of_mem _ h2)
    · rw [show collapseWsAux b (a :: r) = a :: collapseWsAux false r from by
        simp [collapseWsAux, hws]] at hc
      rcases List.mem_cons.mp hc with rfl | h
      · exact Or.inr (List.mem_cons_self _ _)
      · rcases ih false c h with h2 | h2
        · exact Or.inl h2
        · exact Or.inr (List.mem_cons_of_mem _ h2)

/-- A rule output draws its characters from the input or the
replacement. -/
theorem mem_replaceOptS (stem rep l : List Char) :
    ∀ c ∈ replaceOptS stem rep l, c ∈ l ∨ c ∈ rep := by
  intro c hc
  unfold replaceOptS at hc
  split_ifs at hc
  · rcases List.mem_append.mp hc with h | h
    · exact Or.inl (List.take_subset _ _ h)
    · exact Or.inr h
  · rcases List.mem_append.mp hc with h | h
    · exact Or.inl (List.take_subset _ _ h)
    · exact Or.inr h
  · exact Or.inl hc

/-- Every character of a cleanup output is lower-case stable. -/
theorem cleanup_lcFixed (l : List Char) : ∀ c ∈ cleanupHelpTopic l, lcChar c = c := by
  have hq : ∀ c ∈ "question".data, lcChar c = c := by decide
  have he : ∀ c ∈ "error".data, lcChar c = c := by decide
  have hi : ∀ c ∈ "issue".data, lcChar c = c := by decide
  have hsp : lcChar ' ' = ' ' := by decide
  intro c hc
  unfold cleanupHelpTopic at hc
  rcases mem_replaceOptS _ _ _ c hc with hc | h
  swap
  · exact hq c h
  rcases mem_replaceOptS _ _ _ c hc with hc | h
  swap
  · exact he c h
  rcases mem_replaceOptS _ _ _ c hc with hc | h
  swap
  · exact hi c h
  rcases mem_replaceOptS _ _ _ c hc with hc | h
  swap
  · exact hi c h
  rcases mem_collapseWsAux false _ c hc with rfl | hc
  · exact hsp
  have hc2 := (List.mem_filter.mp hc).1
  have hc3 := jsTrim_subset _ c hc2
  obtain ⟨a, _, rfl⟩ := List.mem_map.mp hc3
  exact lcChar_idem a

/-- Every character of a cleanup output is quote-free. -/
theorem cleanup_noQuotes (l : List Char) :
    ∀ c ∈ cleanupHelpTopic l, (!(c = dquoteChar || c = squoteChar)) = true := by
  have hq : ∀ c ∈ "question".data, (!(c = dquoteChar || c = squoteChar)) = true := by decide
  have he : ∀ c ∈ "error".data, (!(c = dquoteChar || c = squoteChar)) = true := by decide
  have hi : ∀ c ∈ "issue".data, (!(c = dquoteChar || c = squoteChar)) = true := by decide
  have hsp : (!((' ' : Char) = dquoteChar || (' ' : Char) = squoteChar)) = true := by decide
  intro c hc
  unfold cleanupHelpTopic at hc
  rcases mem_replaceOptS _ _ _ c hc with hc | h
  swap
  · exact hq c h
  rcases mem_replaceOptS _ _ _ c hc with hc | h
  swap
  · exact he c h
  rcases mem_replaceOptS _ _ _ c hc with hc | h
  swap
  · exact hi c h
  rcases mem_replaceOptS _ _ _ c hc with hc | h
  swap
  · exact hi c h
  rcases mem_collapseWsAux false _ c hc with rfl | hc
  · exact hsp
  exact (List.mem_filter.mp hc).2

/-- After skipping a run, the collapse emits no leading whitespace. -/
theorem headNotWs_collapseWsAux_true (l : List Char) :
    headNotWs (collapseWsAux true l) = true := by
  induction l with
  | nil => rfl
  | cons a r ih =>
    by_cases hws : isWsChar a = true
    · rw [show collapseWsAux true (a :: r) = collapseWsAux true r from by
        simp [collapseWsAux, hws]]
      exact ih
    · rw [show collapseWsAux true (a :: r) = a :: collapseWsAux false r from by
        simp [collapseWsAux, hws]]
      show (!isWsChar a) = true
      rw [Bool.eq_false_iff.mpr hws]
      rfl

/-- Collapse output never contains a whitespace run. -/
theorem noWsRun_collapseWsAux (b : Bool) (l : List Char) :
    noWsRun (collapseWsAux b l) = true := by
  induction l generalizing b with
  | nil => rfl
  | cons a r ih =>
    by_cases hws : isWsChar a = true
    · cases b with
      | true =>
        rw [show collapseWsAux true (a :: r) = collapseWsAux true r from by
          simp [collapseWsAux, hws]]
        exact ih true
      | false =>
        rw [show collapseWsAux false (a :: r) = ' ' :: collapseWsAux true r from by
          simp [collapseWsAux, hws]]
        show ((!isWsChar ' ' || (decide ((' ' : Char) = ' ') && headNotWs (collapseWsAux true r)))
          && noWsRun (collapseWsAux true r)) = true
        rw [headNotWs_collapseWsAux_true r, ih true]
        decide
    · rw [show collapseWsAux b (a :: r) = a :: collapseWsAux false r from by
        simp [collapseWsAux, hws]]
      show ((!isWsChar a || (decide (a = ' ') && headNotWs (collapseWsAux false r)))
        && noWsRun (collapseWsAux false r)) = true
      rw [ih false, Bool.eq_false_iff.mpr hws]
      simp

/-- Disassemble a true disjunction of Booleans. -/
theorem bool_or_elim {x y : Bool} (h : (x || y) = true) : x = true ∨ y = true := by
  cases x with
  | true => exact Or.inl rfl
  | false =>
    cases y with
    | true => exact Or.inr rfl
    | false => cases h

/-- A true left operand makes a disjunction true. -/
theorem bool_or_intro_left {x y : Bool} (h : x = true) : (x || y) = true := by
  rw [h]
  rfl

/-- A true right operand makes a disjunction true. -/
theorem bool_or_intro_right {x y : Bool} (h : y = true) : (x || y) = true := by
  rw [h]
  cases x <;> rfl

/-- Disassemble a true conjunction of Booleans. -/
theorem bool_and_elim {x y : Bool} (h : (x && y) = true) : x = true ∧ y = true := by
  cases x with
  | false => cases h
  | true =>
    cases y with
    | false => cases h
    | true => exact ⟨rfl, rfl⟩

/-- Assemble a true conjunction of Booleans. -/
theorem bool_and_intro {x y : Bool} (hx : x = true) (hy : y = true) : (x && y) = true := by
  rw [hx, hy]
  rfl

/-- Run-free lists are fixed points of the collapse. -/
theorem noWsRun_id (l : List Char) (h : noWsRun l = true) :
    collapseWsAux false l = l ∧ (headNotWs l = true → collapseWsAux true l = l) := by
  induction l with
  | nil => exact ⟨rfl, fun _ => rfl⟩
  | cons a r ih =>
    rw [show noWsRun (a :: r) =
      ((!isWsChar a || (decide (a = ' ') && headNotWs r)) && noWsRun r) from rfl,
      Bool.and_eq_true] at h
    obtain ⟨hcond, hrest⟩ := h
    obtain ⟨ihf, iht⟩ := ih hrest
    by_cases hws : isWsChar a = true
    · have h2 : decide (a = ' ') = true ∧ headNotWs r = true := by
        rcases bool_or_elim hcond with h3 | h3
        · rw [hws] at h3
          cases h3
        · exact bool_and_elim h3
      have ha : a = ' ' := of_decide_eq_true h2.1
      constructor
      · rw [show collapseWsAux false (a :: r) = ' ' :: collapseWsAux true r from by
          simp [collapseWsAux, hws], iht h2.2, ha]
      · intro hh
        rw [show headNotWs (a :: r) = !isWsChar a from rfl, hws] at hh
        cases hh
    · constructor
      · rw [show collapseWsAux false (a :: r) = a :: collapseWsAux false r from by
          simp [collapseWsAux, hws], ihf]
      · intro _
        rw [show collapseWsAux true (a :: r) = a :: collapseWsAux false r from by
          simp [collapseWsAux, hws], ihf]

/-- A run-free list is a fixed point of collapseWs. -/
theorem collapseWs_id_of (l : List Char) (h : noWsRun l = true) : collapseWs l = l :=
  (noWsRun_id l h).1

/-- A head that is not whitespace survives a take. -/
theorem headNotWs_take (l : List Char) (n : Nat) (h : headNotWs l = true) :
    headNotWs (l.take n) = true := by
  cases l with
  | nil => rw [List.take_nil]; rfl
  | cons a r =>
    cases n with
    | zero => rfl
    | succ m => exact h

/-- Run-freedom survives a take. -/
theorem noWsRun_take (l : List Char) (n : Nat) (h : noWsRun l = true) :
    noWsRun (l.take n) = true := by
  induction l generalizing n with
  | nil => rw [List.take_nil]; rfl
  | cons a r ih =>
    cases n with
    | zero => rfl
    | succ m =>
      rw [show noWsRun (a :: r) =
        ((!isWsChar a || (decide (a = ' ') && headNotWs r)) && noWsRun r) from rfl,
        Bool.and_eq_true] at h
      rw [List.take_succ_cons,
        show noWsRun (a :: r.take m) =
          ((!isWsChar a || (decide (a = ' ') && headNotWs (r.take m))) && noWsRun (r.take m))
          from rfl, Bool.and_eq_true]
      refine ⟨?_, ih m h.2⟩
      rcases bool_or_elim h.1 with h3 | h3
      · exact bool_or_intro_left h3
      · obtain ⟨hx, hht⟩ := bool_and_elim h3
        exact bool_or_intro_right (bool_and_intro hx (headNotWs_take r m hht))

/-- Run-freedom survives appending a run-free block that does not start
with whitespace. -/
theorem noWsRun_append (a b : List Char) (ha : noWsRun a = true) (hb : noWsRun b = true)
    (hhb : headNotWs b = true) : noWsRun (a ++ b) = true := by
  induction a with
  | nil => exact hb
  | cons x t ih =>
    rw [show noWsRun (x :: t) =
      ((!isWsChar x || (decide (x = ' ') && headNotWs t)) && noWsRun t) from rfl,
      Bool.and_eq_true] at ha
    rw [List.cons_append,
      show noWsRun (x :: (t ++ b)) =
        ((!isWsChar x || (decide (x = ' ') && headNotWs (t ++ b))) && noWsRun (t ++ b))
        from rfl, Bool.and_eq_true]
    refine ⟨?_, ih ha.2⟩
    rcases bool_or_elim ha.1 with h3 | h3
    · exact bool_or_intro_left h3
    · obtain ⟨hx, hht⟩ := bool_and_elim h3
      refine bool_or_intro_right (bool_and_intro hx ?_)
      cases t with
      | nil => exact hhb
      | cons y u => exact hht

/-- A rule application keeps a list free of whitespace runs when the
replacement is itself run-free with a non-whitespace head. -/
theorem noWsRun_replaceOptS (stem rep b : List Char) (hb : noWsRun b = true)
    (hrep : noWsRun rep = true) (hhrep : headNotWs rep = true) :
    noWsRun (replaceOptS stem rep b) = true := by
  unfold replaceOptS
  split_ifs
  · exact noWsRun_append _ _ (noWsRun_take _ _ hb) hrep hhrep
  · exact noWsRun_append _ _ (noWsRun_take _ _ hb) hrep hhrep
  · exact hb

/-- A cleanup output is free of whitespace runs. -/
theorem cleanup_noWsRun (l : List Char) : noWsRun (cleanupHelpTopic l) = true := by
  unfold cleanupHelpTopic
  apply noWsRun_replaceOptS _ _ _ ?_ (by decide) (by decide)
  apply noWsRun_replaceOptS _ _ _ ?_ (by decide) (by decide)
  apply noWsRun_replaceOptS _ _ _ ?_ (by decide) (by decide)
  apply noWsRun_replaceOptS _ _ _ ?_ (by decide) (by decide)
  exact noWsRun_collapseWsAux false _

/-- After the four-rule chain, none of the endings that could trigger a
rewrite on a second pass is present. -/
theorem cleanup_not_ends (l : List Char) :
    listEndsWith ("issue".data ++ ['s']) (cleanupHelpTopic l) = false ∧
    (listEndsWith ("problem".data ++ ['s']) (cleanupHelpTopic l) = false ∧
      listEndsWith "problem".data (cleanupHelpTopic l) = false) ∧
    listEndsWith ("error".data ++ ['s']) (cleanupHelpTopic l) = false ∧
    listEndsWith ("question".data ++ ['s']) (cleanupHelpTopic l) = false := by
  unfold cleanupHelpTopic
  refine ⟨?_, ⟨?_, ?_⟩, ?_, ?_⟩
  · apply replaceOptS_not_ends_preserve _ _ _ _ ?_ (by decide)
    apply replaceOptS_not_ends_preserve _ _ _ _ ?_ (by decide)
    apply replaceOptS_not_ends_preserve _ _ _ _ ?_ (by decide)
    exact replaceOptS_not_ends_intro_s _ _ _ (by decide)
  · apply replaceOptS_not_ends_preserve _ _ _ _ ?_ (by decide)
    apply replaceOptS_not_ends_preserve _ _ _ _ ?_ (by decide)
    exact replaceOptS_not_ends_intro_s _ _ _ (by decide)
  · apply replaceOptS_not_ends_preserve _ _ _ _ ?_ (by decide)
    apply replaceOptS_not_ends_preserve _ _ _ _ ?_ (by decide)
    exact replaceOptS_not_ends_intro _ _ _ (by decide)
  · apply replaceOptS_not_ends_preserve _ _ _ _ ?_ (by decide)
    exact replaceOptS_not_ends_intro_s _ _ _ (by decide)
  · exact replaceOptS_not_ends_intro_s _ _ _ (by decide)

/-- Plain-map identity from pointwise stability. -/
theorem jsToLower_id_of (l : List Char) (h : ∀ c ∈ l, lcChar c = c) : jsToLower l = l := by
  unfold jsToLower
  induction l with
  | nil => rfl
  | cons a r ih =>
    rw [List.map_cons, h a (List.mem_cons_self _ _),
      ih (fun c hc => h c (List.mem_cons_of_mem _ hc))]

/-- Quote stripping is the identity on quote-free lists. -/
theorem stripQuotes_id_of (l : List Char)
    (h : ∀ c ∈ l, (!(c = dquoteChar || c = squoteChar)) = true) : stripQuotes l = l :=
  List.filter_eq_self.mpr h

/-- A trimmed cleanup output is a fixed point of cleanup. -/
theorem cleanup_cleanup (l : List Char)
    (htrim : jsTrim (cleanupHelpTopic l) = cleanupHelpTopic l) :
    cleanupHelpTopic (cleanupHelpTopic l) = cleanupHelpTopic l := by
  obtain ⟨hA1, ⟨hA2, hA3⟩, hA4, hA5⟩ := cleanup_not_ends l
  show replaceOptS "question".data "question".data
      (replaceOptS "error".data "error".data
        (replaceOptS "problem".data "issue".data
          (replaceOptS "issue".data "issue".data
            (collapseWs (stripQuotes (jsTrim (jsToLower (cleanupHelpTopic l)))))))) =
    cleanupHelpTopic l
  rw [jsToLower_id_of _ (cleanup_lcFixed l), htrim, stripQuotes_id_of _ (cleanup_noQuotes l),
    collapseWs_id_of _ (cleanup_noWsRun l),
    replaceOptS_self_noop _ _ hA1,
    replaceOptS_noop _ _ _ hA2 hA3,
    replaceOptS_self_noop _ _ hA4,
    replaceOptS_self_noop _ _ hA5]

/-- Unfolded equation of the normalizer. -/
theorem normalizeHelpTopic_eq (s : String) :
    normalizeHelpTopic s =
      ((helpTopicMappings.find?
          (fun p => listContainsSub p.1.data (cleanupHelpTopic s.data))).map
        (fun p => p.2)).getD (String.mk (cleanupHelpTopic s.data)) := rfl

set_option maxHeartbeats 2000000 in
/-- Every canonical phrase of the mapping table is a fixed point of the
normalizer. -/
theorem mappings_canonical_fixed :
    ∀ p ∈ helpTopicMappings, normalizeHelpTopic p.2 = p.2 := by decide

set_option maxHeartbeats 2000000 in
/-- C7 (amended): the normalizer is idempotent on every input whose
normalized form carries no leading or trailing whitespace — in
particular on every input free of quote characters — and the three
scenario B spellings all normalize to "vs code issue".  (Quote stripping
happens after trimming, so a quoted topic with inner edge whitespace
yields an untrimmed output that a second pass trims again — see the
counterexample.) -/
theorem normalize_idem_amended :
    (∀ x : String, jsTrim (normalizeHelpTopic x).data = (normalizeHelpTopic x).data →
      normalizeHelpTopic (normalizeHelpTopic x) = normalizeHelpTopic x) ∧
    normalizeHelpTopic "VS Code setup" = "vs code issue" ∧
    normalizeHelpTopic "vscode issue" = "vs code issue" ∧
    normalizeHelpTopic "VSCode Setup" = "vs code issue" := by
  refine ⟨?_, by decide, by decide, by decide⟩
  intro x htrim
  cases hf : helpTopicMappings.find?
      (fun p => listContainsSub p.1.data (cleanupHelpTopic x.data)) with
  | some p =>
    have hx : normalizeHelpTopic x = p.2 := by
      rw [normalizeHelpTopic_eq, hf, Option.map_some', Option.getD_some]
    rw [hx]
    exact mappings_canonical_fixed p (List.mem_of_find?_eq_some hf)
  | none =>
    have hx : normalizeHelpTopic x = String.mk (cleanupHelpTopic x.data) := by
      rw [normalizeHelpTopic_eq, hf, Option.map_none', Option.getD_none]
    rw [hx] at htrim ⊢
    have hdata : (String.mk (cleanupHelpTopic x.data)).data = cleanupHelpTopic x.data := rfl
    rw [hdata] at htrim
    have hcc := cleanup_cleanup x.data htrim
    rw [normalizeHelpTopic_eq, hdata, hcc, hf, Option.map_none', Option.getD_none]

/-- Witness for C7 at a quote-free input. -/
theorem normalize_idem_amended_witness :
    normalizeHelpTopic (normalizeHelpTopic "ssh help") = normalizeHelpTopic "ssh help" :=
  normalize_idem_amended.1 "ssh help" (by decide)

/-- C7 counterexample: a quoted topic whose quote stripping exposes a
leading space is not trimmed by one normalization pass, so a second pass
changes it again. -/
theorem normalize_idem_cex :
    ¬ normalizeHelpTopic (normalizeHelpTopic cexRawTopic) = normalizeHelpTopic cexRawTopic := by
  decide

end DiscordIntroAgent
